import Mathlib

/-!
# ultravim_dict: the request handler of `main.go`

A shallow embedding of `handleRequest` (src/main.go, lines 37-141) and of the
helper `contains` (lines 28-35).

* Go strings are modelled as lists of Unicode code points (`Str`); the request
  text is taken to be valid UTF-8, so that one `Char` is one rune of Go's
  `regexp` and `strings` packages.
* The global `dictData map[string][]string` is modelled as a partial function
  from keys to value sequences (`Dict`): `none` is an absent key.
* A Go run-time panic (index or slice bounds out of range) is modelled by the
  result `none` of the functions that can panic.
* The use of `dictMutex` is modelled by the list of steps of a function, each
  step a lock, an unlock, an access to `dictData` or something else (`Op`).
-/

namespace UltravimDict

/-- Go `string`, as the sequence of its runes. -/
abbrev Str := List Char

/-- The global `dictData map[string][]string`: `none` is an absent key. -/
abbrev Dict := Str → Option (List Str)

/-- The initial value of `dictData`: `make(map[string][]string)`. -/
def emptyDict : Dict := fun _ => none

/-- The Go map read `dictData[key]`: the nil (empty) slice for an absent key. -/
def dictIndex (d : Dict) (key : Str) : List Str :=
  match d key with
  | some vs => vs
  | none => []

/-- The Go map write `dictData[key] = vs`. -/
def dictAssign (d : Dict) (key : Str) (vs : List Str) : Dict :=
  fun k => if k = key then some vs else d k

/-- The Go builtin `delete(dictData, key)`. -/
def dictDelete (d : Dict) (key : Str) : Dict :=
  fun k => if k = key then none else d k

/-- `func contains(s []string, e string) bool` (main.go 28-35). -/
def contains : List Str → Str → Bool
  | [], _ => false
  | a :: rest, e => if a = e then true else contains rest e

/-- `case "GET"` of the dispatch switch (main.go 100-102):
the dictionary afterwards and `found`. -/
def caseGET (d : Dict) (key : Str) : Dict × List Str :=
  (d, dictIndex d key)

/-- `case "PUT"` of the dispatch switch (main.go 103-108):
the dictionary afterwards and `found`. -/
def casePUT (d : Dict) (key value : Str) : Dict × List Str :=
  let d1 := if !contains (dictIndex d key) value then
      dictAssign d key (dictIndex d key ++ [value])
    else d
  (d1, dictIndex d1 key)

/-- The assignment `dictData[key] = append(dictData[key][:idx], dictData[key][idx+1:]...)`
on the backing array `arr` of the slice, whose current length is `m`: the cells
`idx+1 .. m-1` are moved one place down, in place; every other cell keeps its
content. The slice itself becomes the first `m - 1` cells. -/
def removeAt (arr : List Str) (m idx : Nat) : List Str :=
  arr.take idx ++ (arr.take m).drop (idx + 1) ++ arr.drop (m - 1)

/-- The loop `for idx, el := range dictData[key]` of `case "DELETE"` (main.go 113-117).
The range expression is evaluated once, so the loop visits the indices
`idx, idx+1, ...` (`r` of them are left) of the backing array `arr`, reading each
cell when it gets there, while `m` is the current length of `dictData[key]`.
The slice expression `dictData[key][idx+1:]` panics when `idx + 1 > m`. -/
def rangeDelete (value : Str) : Nat → Nat → List Str → Nat → Option (List Str × Nat)
  | 0, _, arr, m => some (arr, m)
  | r + 1, idx, arr, m =>
    if arr.getD idx [] = value then
      if idx + 1 ≤ m then
        rangeDelete value r (idx + 1) (removeAt arr m idx) (m - 1)
      else none
    else rangeDelete value r (idx + 1) arr m

/-- `case "DELETE"` of the dispatch switch (main.go 109-120):
the dictionary afterwards and `found`, or `none` for a panic. After the loop
`dictData[key]` is the first `m` cells of the backing array; when no element
was equal to `value` that is the old sequence, and the entry is as it was. -/
def caseDELETE (d : Dict) (key value : Str) : Option (Dict × List Str) :=
  if (dictIndex d key).length = 1 then
    some (dictDelete d key, dictIndex (dictDelete d key) key)
  else if (dictIndex d key).length > 1 then
    match rangeDelete value (dictIndex d key).length 0 (dictIndex d key)
        (dictIndex d key).length with
    | some (arr, m) =>
      some (dictAssign d key (arr.take m), dictIndex (dictAssign d key (arr.take m)) key)
    | none => none
  else some (d, dictIndex d key)

/-- The response text (main.go 126-136): `tmp2` accumulates
`fmt.Sprintf(" <%s>", el)` over `found`; `fmt.Sprintln("404")` otherwise. -/
def respond (found : List Str) : Str :=
  if found.length > 0 then
    "200".toList ++ found.foldl (fun tmp2 el => tmp2 ++ (" <".toList ++ el ++ ">".toList)) []
      ++ "\n".toList
  else "404".toList ++ "\n".toList

/-- Go `unicode.IsSpace`: the runes with Unicode's White_Space property. -/
def isSpace (c : Char) : Bool :=
  c.toNat = 0x20 || (0x09 ≤ c.toNat && c.toNat ≤ 0x0d) || c.toNat = 0x85 || c.toNat = 0xa0
    || c.toNat = 0x1680 || (0x2000 ≤ c.toNat && c.toNat ≤ 0x200a) || c.toNat = 0x2028
    || c.toNat = 0x2029 || c.toNat = 0x202f || c.toNat = 0x205f || c.toNat = 0x3000

/-- Go `strings.TrimSpace`: the string without its leading and trailing white space. -/
def TrimSpace (s : Str) : Str :=
  ((s.dropWhile isSpace).reverse.dropWhile isSpace).reverse

/-- The text before and the text after the first space of `s`, when it has one. -/
def cutAtSpace : Str → Option (Str × Str)
  | [] => none
  | c :: rest =>
    if c = ' ' then some ([], rest)
    else
      match cutAtSpace rest with
      | some (a, b) => some (c :: a, b)
      | none => none

/-- Go `strings.SplitN(s, " ", 2)`: at most two pieces, cut at the first space. -/
def SplitN (s : Str) : List Str :=
  match cutAtSpace s with
  | some (a, b) => [a, b]
  | none => [s]

/-- The class `.` of Go's `regexp` (flag `s` off): any rune but the newline. -/
def dot (c : Char) : Bool := c != '\n'

/-- Greedy `.{0,n}` followed by the rest `k` of the pattern, as a backtracking
search (Go's `regexp` returns the match such a search finds first): one more
rune is tried first, and the shorter repetition when that fails. `acc` is the
text the repetition has consumed so far. -/
def dotsUpTo {β : Type} (k : Str → Str → Option β) : Nat → Str → Str → Option β
  | 0, acc, s => k acc s
  | _ + 1, acc, [] => k acc []
  | n + 1, acc, c :: s =>
    if dot c then
      match dotsUpTo k n (acc ++ [c]) s with
      | some r => some r
      | none => k acc (c :: s)
    else k acc (c :: s)

/-- Greedy `.{1,255}` followed by the rest `k` of the pattern. -/
def dots1to255 {β : Type} (k : Str → Str → Option β) : Str → Option β
  | [] => none
  | c :: s => if dot c then dotsUpTo k 254 [c] s else none

/-- The pattern `<(?P<query>.{1,255})>` (main.go 61) matched at the very start of
`s`: the text of the group `query`. -/
def matchGetAt : Str → Option Str
  | [] => none
  | c :: s =>
    if c = '<' then
      dots1to255 (fun query rest =>
        match rest with
        | [] => none
        | c1 :: _ => if c1 = '>' then some query else none) s
    else none

/-- The call `regex.FindStringSubmatch(queryArgsRaw)` for the pattern of `case "GET"`:
the leftmost match; `matches[1]` when there is a match (`len(matches) == 2`). -/
def findGet : Str → Option Str
  | [] => none
  | c :: s =>
    match matchGetAt (c :: s) with
    | some query => some query
    | none => findGet s

/-- The pattern `<(?P<query>.{1,255})> <(?P<value>.{1,255})>` (main.go 70 and 80)
matched at the very start of `s`: the texts of the groups `query` and `value`. -/
def matchPutAt : Str → Option (Str × Str)
  | [] => none
  | c :: s =>
    if c = '<' then
      dots1to255 (fun query rest =>
        match rest with
        | c1 :: c2 :: c3 :: rest2 =>
          if c1 = '>' ∧ c2 = ' ' ∧ c3 = '<' then
            dots1to255 (fun value rest3 =>
              match rest3 with
              | [] => none
              | c4 :: _ => if c4 = '>' then some (query, value) else none) rest2
          else none
        | _ => none) s
    else none

/-- The call `regex.FindStringSubmatch(queryArgsRaw)` for the pattern of `case "PUT"`
and `case "DELETE"`: the leftmost match; `matches[1]` and `matches[2]` when there
is a match (`len(matches) == 3`). -/
def findPut : Str → Option (Str × Str)
  | [] => none
  | c :: s =>
    match matchPutAt (c :: s) with
    | some kv => some kv
    | none => findPut s

/-- The first switch of `handleRequest` (main.go 59-91): `key` and `value`, both
empty unless the pattern of the query type matches. -/
def parseArgs (queryType queryArgsRaw : Str) : Str × Str :=
  if queryType = "GET".toList then
    match findGet queryArgsRaw with
    | some query => (query, [])
    | none => ([], [])
  else if queryType = "PUT".toList then
    match findPut queryArgsRaw with
    | some kv => kv
    | none => ([], [])
  else if queryType = "DELETE".toList then
    match findPut queryArgsRaw with
    | some kv => kv
    | none => ([], [])
  else ([], [])

/-- The second switch of `handleRequest` (main.go 98-122), run under `dictMutex`:
the dictionary afterwards and `found` (nil for any other query type), or `none`
for a panic. -/
def dispatch (d : Dict) (queryType key value : Str) : Option (Dict × List Str) :=
  if queryType = "GET".toList then some (caseGET d key)
  else if queryType = "PUT".toList then some (casePUT d key value)
  else if queryType = "DELETE".toList then caseDELETE d key value
  else some (d, [])

/-- `func handleRequest(c net.Conn, conf Configuration)` (main.go 37-141) on the
line `data` that `ReadString` returned: the dictionary afterwards and the
response written to the connection, or `none` when the handler panics (the index
`tmpN[1]` of main.go 51 is out of range when the trimmed line has no space). -/
def handleRequest (d : Dict) (data : Str) : Option (Dict × Str) :=
  match SplitN (TrimSpace data) with
  | [t0, t1] =>
    match dispatch d (TrimSpace t0) (parseArgs (TrimSpace t0) (TrimSpace t1)).1
        (parseArgs (TrimSpace t0) (TrimSpace t1)).2 with
    | some (d1, found) => some (d1, respond found)
    | none => none
  | _ => none

/-- The dictionaries the server can be in: `init` is the start on a fresh data
file, `step` is one request handled to the end. -/
inductive Reachable : Dict → Prop
  | init : Reachable emptyDict
  | step {d d1 : Dict} {data resp : Str} :
      Reachable d → handleRequest d data = some (d1, resp) → Reachable d1

/-- Every value sequence of the dictionary is free of duplicates. -/
def DupFree (d : Dict) : Prop := ∀ k : Str, (dictIndex d k).Nodup

/-- No key of the dictionary is mapped to an empty sequence. -/
def NoEmptyEntry (d : Dict) : Prop := ∀ (k : Str) (vs : List Str), d k = some vs → vs ≠ []

/-- The values of `queryType`, `key` and `value` once `handleRequest` has run its
first switch (main.go 44-91) on the line `data`, or `none` when the index
`tmpN[1]` panics. -/
def parseRequest (data : Str) : Option (Str × Str × Str) :=
  match SplitN (TrimSpace data) with
  | [t0, t1] =>
    some (TrimSpace t0, (parseArgs (TrimSpace t0) (TrimSpace t1)).1,
      (parseArgs (TrimSpace t0) (TrimSpace t1)).2)
  | _ => none

/-- Connections handled one after the other, each by `handleRequest` (the accept
loop of main.go 187-194 with one request finished before the next is read): the
dictionary at the end and the responses in order, or `none` when a handler
panics. -/
def serve : Dict → List Str → Option (Dict × List Str)
  | d, [] => some (d, [])
  | d, data :: rest =>
    match handleRequest d data with
    | some (d1, resp) =>
      match serve d1 rest with
      | some (d2, resps) => some (d2, resp :: resps)
      | none => none
    | none => none

/-- A key or value of the wire format: 1 to 255 characters, none of them `<`, `>`
or a line terminator. -/
def Token (s : Str) : Prop :=
  1 ≤ s.length ∧ s.length ≤ 255 ∧ '<' ∉ s ∧ '>' ∉ s ∧ '\n' ∉ s ∧ '\r' ∉ s

instance (s : Str) : Decidable (Token s) := by
  unfold Token
  infer_instance

/-- The request line `GET <k>` of the wire format, with its newline. -/
def lineGET (k : Str) : Str := "GET <".toList ++ k ++ ">\n".toList

/-- The request line `PUT <k> <v>` of the wire format, with its newline. -/
def linePUT (k v : Str) : Str := "PUT <".toList ++ k ++ "> <".toList ++ v ++ ">\n".toList

/-- The request line `DELETE <k> <v>` of the wire format, with its newline. -/
def lineDELETE (k v : Str) : Str :=
  "DELETE <".toList ++ k ++ "> <".toList ++ v ++ ">\n".toList

/-- The argument string is exactly one bracketed token `<k>`. -/
def ShapeGET (args : Str) : Prop := ∃ k : Str, Token k ∧ args = '<' :: k ++ ['>']

/-- The argument string is exactly two bracketed tokens `<k> <v>`. -/
def ShapePUT (args : Str) : Prop :=
  ∃ k v : Str, Token k ∧ Token v ∧ args = '<' :: k ++ '>' :: ' ' :: '<' :: v ++ ['>']

/-- Somewhere in the argument string there is a `<`, then 1 to 255 characters
other than the newline, then a `>`. -/
def HasGetMatch (args : Str) : Prop :=
  ∃ pre x post : Str, args = pre ++ '<' :: x ++ '>' :: post
    ∧ 1 ≤ x.length ∧ x.length ≤ 255 ∧ '\n' ∉ x

/-- Somewhere in the argument string there are two such bracketed texts with one
space between them. -/
def HasPutMatch (args : Str) : Prop :=
  ∃ pre x y post : Str, args = pre ++ '<' :: x ++ '>' :: ' ' :: '<' :: y ++ '>' :: post
    ∧ (1 ≤ x.length ∧ x.length ≤ 255 ∧ '\n' ∉ x)
    ∧ (1 ≤ y.length ∧ y.length ≤ 255 ∧ '\n' ∉ y)

/-- The argument string `args` is `pre`, then `<`, the text `x` of 1 to 255
characters other than the newline, `>`, and then `post`. -/
def IsGetMatch (args pre x post : Str) : Prop :=
  args = pre ++ '<' :: x ++ '>' :: post ∧ 1 ≤ x.length ∧ x.length ≤ 255 ∧ '\n' ∉ x

/-- The argument string `args` is `pre`, then `<x> <y>` with `x` and `y` of 1 to
255 characters other than the newline each, and then `post`. -/
def IsPutMatch (args pre x y post : Str) : Prop :=
  args = pre ++ '<' :: x ++ '>' :: ' ' :: '<' :: y ++ '>' :: post
    ∧ (1 ≤ x.length ∧ x.length ≤ 255 ∧ '\n' ∉ x)
    ∧ (1 ≤ y.length ∧ y.length ≤ 255 ∧ '\n' ∉ y)

/-- Every key of the dictionary and every value stored in it has at most 255
characters. -/
def Bounded (d : Dict) : Prop :=
  ∀ (k : Str) (vs : List Str), d k = some vs → k.length ≤ 255 ∧ ∀ v ∈ vs, v.length ≤ 255

/-- What a step of a function does to `dictMutex` and to `dictData`: `lock` is
`dictMutex.Lock()`, `unlock` is `dictMutex.Unlock()`, `access` reads or writes
`dictData`, `other` does neither. -/
inductive Op where
  | lock
  | unlock
  | access
  | other

/-- The steps of `handleRequest` in program order (main.go 37-141): reading and
parsing the line (38-94), `dictMutex.Lock()` (98), the dispatch switch on
`dictData` (99-121), `dictMutex.Unlock()` (122), formatting and writing the
response (124-140). -/
def handleRequestOps : List Op := [Op.other, Op.lock, Op.access, Op.unlock, Op.other]

/-- The steps of `saveDataToFile` in program order (main.go 211-223): the log line
and `os.Create` (212-217), then `encoder.Encode(dictData)` (219-222). The function
never calls `dictMutex.Lock()`. -/
def saveDataToFileOps : List Op := [Op.other, Op.access]

/-- Every `access` of the step list happens while the mutex is held; `held` tells
whether it is held before the first step. -/
def accessesGuarded : Bool → List Op → Bool
  | _, [] => true
  | _, Op.lock :: rest => accessesGuarded true rest
  | _, Op.unlock :: rest => accessesGuarded false rest
  | held, Op.access :: rest => held && accessesGuarded held rest
  | held, Op.other :: rest => accessesGuarded held rest

/-! ## Helper lemmas: the dictionary primitives -/

theorem contains_eq_true_iff (s : List Str) (e : Str) : contains s e = true ↔ e ∈ s := by
  induction s with
  | nil => simp [contains]
  | cons a rest ih =>
    by_cases h : a = e
    · simp [contains, h]
    · have h2 : ¬ e = a := fun h3 => h h3.symm
      simp [contains, h, h2, ih]

theorem dictIndex_assign_same (d : Dict) (key : Str) (vs : List Str) :
    dictIndex (dictAssign d key vs) key = vs := by
  simp [dictIndex, dictAssign]

theorem dictIndex_assign_other (d : Dict) (key k : Str) (vs : List Str) (h : k ≠ key) :
    dictIndex (dictAssign d key vs) k = dictIndex d k := by
  simp [dictIndex, dictAssign, h]

theorem dictIndex_delete_same (d : Dict) (key : Str) :
    dictIndex (dictDelete d key) key = [] := by
  simp [dictIndex, dictDelete]

theorem dictIndex_delete_other (d : Dict) (key k : Str) (h : k ≠ key) :
    dictIndex (dictDelete d key) k = dictIndex d k := by
  simp [dictIndex, dictDelete, h]

theorem dictIndex_of_some (d : Dict) (k : Str) (vs : List Str) (h : d k = some vs) :
    dictIndex d k = vs := by
  simp [dictIndex, h]

theorem dictIndex_of_none (d : Dict) (k : Str) (h : d k = none) :
    dictIndex d k = [] := by
  simp [dictIndex, h]

theorem dict_some_of_index_ne_nil (d : Dict) (k : Str) (h : dictIndex d k ≠ []) :
    d k = some (dictIndex d k) := by
  unfold dictIndex at h ⊢
  cases hk : d k with
  | none => simp [hk] at h
  | some vs => simp

/-! ## Helper lemmas: the loop of `case "DELETE"` -/

theorem rangeDelete_skip (value : Str) (r : Nat) :
    ∀ (idx : Nat) (arr : List Str) (m : Nat), idx + r ≤ arr.length →
      value ∉ arr.drop idx → rangeDelete value r idx arr m = some (arr, m) := by
  induction r with
  | zero => intro idx arr m _ _; rfl
  | succ r ih =>
    intro idx arr m hlen hnot
    have hlt : idx < arr.length := by omega
    have hne : ¬ arr.getD idx [] = value := by
      intro heq
      apply hnot
      rw [← heq, List.getD_eq_getElem arr [] hlt]
      rw [List.mem_iff_getElem]
      refine ⟨0, by simp; omega, by simp⟩
    have hnot2 : value ∉ arr.drop (idx + 1) := by
      intro hmem
      apply hnot
      have : arr.drop (idx + 1) = (arr.drop idx).drop 1 := by simp [List.drop_drop, Nat.add_comm]
      rw [this] at hmem
      exact List.mem_of_mem_drop hmem
    simp only [rangeDelete, hne, if_false]
    exact ih (idx + 1) arr m (by omega) hnot2

theorem removeAt_append (pre xs : List Str) (x : Str) :
    removeAt (pre ++ x :: xs) (pre.length + (xs.length + 1)) pre.length
      = pre ++ xs ++ (x :: xs).drop xs.length := by
  unfold removeAt
  have h1 : (pre ++ x :: xs).take pre.length = pre := by simp
  have h2 : (pre ++ x :: xs).take (pre.length + (xs.length + 1)) = pre ++ x :: xs := by
    apply List.take_of_length_le; simp
  have h3 : (pre ++ x :: xs).drop (pre.length + 1) = xs := by
    rw [← List.drop_drop]; simp
  have h4 : (pre ++ x :: xs).drop (pre.length + (xs.length + 1) - 1)
      = (x :: xs).drop xs.length := by
    have : pre.length + (xs.length + 1) - 1 = pre.length + xs.length := by omega
    rw [this, ← List.drop_drop]; simp
  rw [h1, h2, h3, h4]

theorem mem_tail_of_removeAt (xs : List Str) (x y : Str)
    (h : y ∈ (xs ++ (x :: xs).drop xs.length).drop 1) : y ∈ xs := by
  cases xs with
  | nil => simp at h
  | cons z zs =>
    simp only [List.length_cons, List.drop_succ_cons, List.cons_append, List.drop_zero] at h
    rcases List.mem_append.mp h with h1 | h1
    · exact List.mem_cons_of_mem _ h1
    · exact List.mem_of_mem_drop h1

theorem rangeDelete_erase (value : Str) (rest : List Str) :
    ∀ pre : List Str, rest.Nodup →
      ∃ arr m, rangeDelete value rest.length pre.length (pre ++ rest)
          (pre.length + rest.length) = some (arr, m)
        ∧ arr.take m = pre ++ rest.erase value := by
  induction rest with
  | nil => intro pre _; exact ⟨pre ++ [], pre.length + 0, rfl, by simp⟩
  | cons x xs ih =>
    intro pre hnd
    have hx : (pre ++ x :: xs).getD pre.length [] = x := by
      rw [List.getD_eq_getElem?_getD, List.getElem?_append_right (Nat.le_refl _)]; simp
    have hnd2 : xs.Nodup := (List.nodup_cons.mp hnd).2
    have hxs : x ∉ xs := (List.nodup_cons.mp hnd).1
    by_cases hv : x = value
    · subst hv
      refine ⟨pre ++ xs ++ (x :: xs).drop xs.length, pre.length + xs.length, ?_, ?_⟩
      · simp only [List.length_cons, rangeDelete, hx, if_true]
        have hle : pre.length + 1 ≤ pre.length + (xs.length + 1) := by omega
        rw [if_pos hle, removeAt_append]
        have hm : pre.length + (xs.length + 1) - 1 = pre.length + xs.length := by omega
        rw [hm]
        apply rangeDelete_skip
        · simp; omega
        · intro hmem
          apply hxs
          apply mem_tail_of_removeAt xs x x
          have : (pre ++ xs ++ (x :: xs).drop xs.length).drop (pre.length + 1)
              = (xs ++ (x :: xs).drop xs.length).drop 1 := by
            rw [List.append_assoc, ← List.drop_drop]; simp
          rw [this] at hmem
          exact hmem
      · rw [← List.length_append, List.take_left]
        simp
    · obtain ⟨arr, m, h1, h2⟩ := ih (pre ++ [x]) hnd2
      refine ⟨arr, m, ?_, ?_⟩
      · simp only [List.length_cons, rangeDelete, hx, hv, if_false]
        have e1 : (pre ++ [x]).length = pre.length + 1 := by simp
        have e2 : pre ++ [x] ++ xs = pre ++ x :: xs := by simp
        rw [e1, e2] at h1
        have e4 : pre.length + 1 + xs.length = pre.length + (xs.length + 1) := by omega
        rw [e4] at h1
        exact h1
      · rw [h2]
        have : (x :: xs).erase value = x :: xs.erase value := by
          rw [List.erase_cons_tail]; simpa using hv
        rw [this]; simp

theorem rangeDelete_nodup (value : Str) (l : List Str) (h : l.Nodup) :
    ∃ arr m, rangeDelete value l.length 0 l l.length = some (arr, m)
      ∧ arr.take m = l.erase value := by
  have := rangeDelete_erase value l [] h
  simpa using this

/-! ## Helper lemmas: the three cases on a duplicate-free sequence -/

theorem caseDELETE_of_nodup (d : Dict) (key value : Str) (h : (dictIndex d key).Nodup) :
    caseDELETE d key value =
      if (dictIndex d key).length = 1 then some (dictDelete d key, [])
      else if (dictIndex d key).length > 1 then
        some (dictAssign d key ((dictIndex d key).erase value), (dictIndex d key).erase value)
      else some (d, []) := by
  unfold caseDELETE
  by_cases h1 : (dictIndex d key).length = 1
  · simp [h1, dictIndex_delete_same]
  · by_cases h2 : (dictIndex d key).length > 1
    · obtain ⟨arr, m, e1, e2⟩ := rangeDelete_nodup value (dictIndex d key) h
      simp only [h1, h2, if_false, if_true, e1, e2, dictIndex_assign_same]
    · have h3 : dictIndex d key = [] := by
        apply List.eq_nil_of_length_eq_zero; omega
      simp [h1, h2, h3]

theorem casePUT_fst (d : Dict) (key value : Str) :
    (casePUT d key value).1 =
      if value ∈ dictIndex d key then d
      else dictAssign d key (dictIndex d key ++ [value]) := by
  unfold casePUT
  by_cases h : value ∈ dictIndex d key
  · have hc : contains (dictIndex d key) value = true := (contains_eq_true_iff _ _).mpr h
    simp [h, hc]
  · have hc : contains (dictIndex d key) value = false := by
      cases hb : contains (dictIndex d key) value with
      | false => rfl
      | true => exact absurd ((contains_eq_true_iff _ _).mp hb) h
    simp [h, hc]

theorem casePUT_snd (d : Dict) (key value : Str) :
    (casePUT d key value).2 = dictIndex (casePUT d key value).1 key := rfl

theorem casePUT_index_same (d : Dict) (key value : Str) :
    dictIndex (casePUT d key value).1 key =
      if value ∈ dictIndex d key then dictIndex d key else dictIndex d key ++ [value] := by
  rw [casePUT_fst]
  by_cases h : value ∈ dictIndex d key
  · simp [h]
  · simp [h, dictIndex_assign_same]

theorem casePUT_index_other (d : Dict) (key value k : Str) (hk : k ≠ key) :
    dictIndex (casePUT d key value).1 k = dictIndex d k := by
  rw [casePUT_fst]
  by_cases h : value ∈ dictIndex d key
  · simp [h]
  · simp [h, dictIndex_assign_other _ _ _ _ hk]

theorem casePUT_mem (d : Dict) (key value : Str) :
    value ∈ dictIndex (casePUT d key value).1 key := by
  rw [casePUT_index_same]
  by_cases h : value ∈ dictIndex d key
  · simp [h]
  · simp [h]

theorem casePUT_dupFree (d : Dict) (key value : Str) (hd : DupFree d) :
    DupFree (casePUT d key value).1 := by
  intro k
  by_cases hk : k = key
  · subst hk
    rw [casePUT_index_same]
    by_cases h : value ∈ dictIndex d k
    · simpa [h] using hd k
    · simp only [h, if_false]
      rw [List.nodup_append]
      refine ⟨hd k, List.nodup_singleton _, ?_⟩
      intro a ha hb
      rw [List.mem_singleton] at hb
      exact h (hb ▸ ha)
  · rw [casePUT_index_other _ _ _ _ hk]
    exact hd k

/-! ## The claims on the three store operations -/

/-- C1. `case "PUT"`: when `v` is not in `k`'s sequence, `k` is mapped to the old
sequence with `v` appended as the last element; when `v` is in it, `k` keeps its
sequence (the whole dictionary is unchanged); every other key keeps its entry;
and `found` is `k`'s full resulting sequence. -/
theorem casePUT_spec (d : Dict) (k v : Str) :
    (v ∉ dictIndex d k →
        (casePUT d k v).1 k = some (dictIndex d k ++ [v])
        ∧ (casePUT d k v).2 = dictIndex d k ++ [v])
    ∧ (v ∈ dictIndex d k →
        (casePUT d k v).1 = d ∧ (casePUT d k v).1 k = some (dictIndex d k)
        ∧ (casePUT d k v).2 = dictIndex d k)
    ∧ (∀ k2 : Str, k2 ≠ k → (casePUT d k v).1 k2 = d k2)
    ∧ (casePUT d k v).2 = dictIndex (casePUT d k v).1 k := by
  refine ⟨?_, ?_, ?_, rfl⟩
  · intro h
    constructor
    · rw [casePUT_fst]; simp [h, dictAssign]
    · rw [casePUT_snd, casePUT_index_same]; simp [h]
  · intro h
    have hne : dictIndex d k ≠ [] := List.ne_nil_of_mem h
    refine ⟨?_, ?_, ?_⟩
    · rw [casePUT_fst]; simp [h]
    · rw [casePUT_fst]; simp only [h, if_true]
      exact dict_some_of_index_ne_nil d k hne
    · rw [casePUT_snd, casePUT_index_same]; simp [h]
  · intro k2 hk
    rw [casePUT_fst]
    by_cases h : v ∈ dictIndex d k
    · simp [h]
    · simp [h, dictAssign, hk]

/-- C1, on a concrete dictionary: `PUT fruit banana` on `fruit -> [apple]` gives
`fruit -> [apple, banana]`, and `PUT fruit apple` changes nothing. -/
theorem casePUT_spec_witness :
    "banana".toList ∉ dictIndex (dictAssign emptyDict "fruit".toList ["apple".toList])
        "fruit".toList
    ∧ (casePUT (dictAssign emptyDict "fruit".toList ["apple".toList]) "fruit".toList
        "banana".toList).2 = ["apple".toList, "banana".toList]
    ∧ (casePUT (dictAssign emptyDict "fruit".toList ["apple".toList]) "fruit".toList
        "apple".toList).2 = ["apple".toList] :=
  ⟨by decide,
   ((casePUT_spec (dictAssign emptyDict "fruit".toList ["apple".toList]) "fruit".toList
      "banana".toList).1 (by decide)).2,
   ((casePUT_spec (dictAssign emptyDict "fruit".toList ["apple".toList]) "fruit".toList
      "apple".toList).2.1 (by decide)).2.2⟩

/-- C2. `case "DELETE"` on a duplicate-free dictionary, for a value `v` of `k`'s
sequence: the case ends without a panic; `k` is removed when `v` was its only
value, and is otherwise mapped to the old sequence without `v`, the other values
in their order; every other key keeps its entry; `found` is the resulting
sequence. And `PUT k v`, `DELETE k v`, `GET k` finds a sequence without `v`. -/
theorem caseDELETE_present (d : Dict) (k v : Str) (hd : DupFree d) :
    (v ∈ dictIndex d k →
      ∃ d1 found, caseDELETE d k v = some (d1, found)
        ∧ (dictIndex d k = [v] → d1 k = none ∧ found = [])
        ∧ (dictIndex d k ≠ [v] →
            d1 k = some ((dictIndex d k).filter (fun x => x != v))
            ∧ found = (dictIndex d k).filter (fun x => x != v) ∧ found ≠ [])
        ∧ (∀ k2 : Str, k2 ≠ k → d1 k2 = d k2))
    ∧ (∃ d2 found2, caseDELETE (casePUT d k v).1 k v = some (d2, found2)
        ∧ v ∉ found2 ∧ v ∉ (caseGET d2 k).2) := by
  have key : ∀ d0 : Dict, DupFree d0 → v ∈ dictIndex d0 k →
      ∃ d1 found, caseDELETE d0 k v = some (d1, found)
        ∧ (dictIndex d0 k = [v] → d1 k = none ∧ found = [])
        ∧ (dictIndex d0 k ≠ [v] →
            d1 k = some ((dictIndex d0 k).filter (fun x => x != v))
            ∧ found = (dictIndex d0 k).filter (fun x => x != v) ∧ found ≠ [])
        ∧ (∀ k2 : Str, k2 ≠ k → d1 k2 = d0 k2)
        ∧ v ∉ found ∧ v ∉ dictIndex d1 k := by
    intro d0 hd0 hv
    have hnd := hd0 k
    have hpos : 0 < (dictIndex d0 k).length := List.length_pos_of_mem hv
    rw [caseDELETE_of_nodup d0 k v hnd]
    by_cases h1 : (dictIndex d0 k).length = 1
    · have hsingle : dictIndex d0 k = [v] := by
        obtain ⟨a, ha⟩ := List.length_eq_one.mp h1
        rw [ha] at hv ⊢
        rw [List.mem_singleton] at hv
        rw [hv]
      refine ⟨dictDelete d0 k, [], by simp [h1], ?_, ?_, ?_, by simp, ?_⟩
      · intro _; simp [dictDelete]
      · intro hne; exact absurd hsingle hne
      · intro k2 hk; simp [dictDelete, hk]
      · rw [dictIndex_delete_same]; simp
    · have h2 : (dictIndex d0 k).length > 1 := by omega
      have hfil : (dictIndex d0 k).erase v = (dictIndex d0 k).filter (fun x => x != v) :=
        List.Nodup.erase_eq_filter hnd v
      have hnotmem : v ∉ (dictIndex d0 k).erase v := by
        intro hm
        exact ((List.Nodup.mem_erase_iff hnd).mp hm).1 rfl
      have hlen : ((dictIndex d0 k).erase v).length = (dictIndex d0 k).length - 1 :=
        List.length_erase_of_mem hv
      refine ⟨dictAssign d0 k ((dictIndex d0 k).erase v), (dictIndex d0 k).erase v,
        by simp [h1, h2], ?_, ?_, ?_, hnotmem, ?_⟩
      · intro hs; rw [hs] at h1; simp at h1
      · intro _
        refine ⟨by simp [dictAssign, hfil], hfil, ?_⟩
        intro hnil
        rw [hnil] at hlen
        simp at hlen
        omega
      · intro k2 hk; simp [dictAssign, hk]
      · rw [dictIndex_assign_same]; exact hnotmem
  refine ⟨?_, ?_⟩
  · intro hv
    obtain ⟨d1, found, h1, h2, h3, h4, _, _⟩ := key d hd hv
    exact ⟨d1, found, h1, h2, h3, h4⟩
  · obtain ⟨d2, found2, h1, _, _, _, h5, h6⟩ :=
      key (casePUT d k v).1 (casePUT_dupFree d k v hd) (casePUT_mem d k v)
    exact ⟨d2, found2, h1, h5, h6⟩

/-- C2, on a concrete dictionary: `DELETE fruit banana` on
`fruit -> [apple, banana, cherry]` ends with `fruit -> [apple, cherry]` and
`found = [apple, cherry]`. -/
theorem caseDELETE_present_witness :
    DupFree (dictAssign emptyDict "fruit".toList
        ["apple".toList, "banana".toList, "cherry".toList])
    ∧ ∃ d1 found, caseDELETE (dictAssign emptyDict "fruit".toList
          ["apple".toList, "banana".toList, "cherry".toList]) "fruit".toList
          "banana".toList = some (d1, found)
        ∧ d1 "fruit".toList = some ["apple".toList, "cherry".toList]
        ∧ found = ["apple".toList, "cherry".toList] := by
  have hd : DupFree (dictAssign emptyDict "fruit".toList
      ["apple".toList, "banana".toList, "cherry".toList]) := by
    intro k
    by_cases hk : k = "fruit".toList
    · subst hk; rw [dictIndex_assign_same]; decide
    · rw [dictIndex_assign_other _ _ _ _ hk]; simp [dictIndex, emptyDict]
  refine ⟨hd, ?_⟩
  obtain ⟨d1, found, h1, _, h3, _⟩ :=
    (caseDELETE_present _ "fruit".toList "banana".toList hd).1 (by decide)
  obtain ⟨e1, e2, _⟩ := h3 (by decide)
  have hf : (dictIndex (dictAssign emptyDict "fruit".toList
      ["apple".toList, "banana".toList, "cherry".toList]) "fruit".toList).filter
        (fun x => x != "banana".toList) = ["apple".toList, "cherry".toList] := by decide
  rw [hf] at e1 e2
  exact ⟨d1, found, h1, e1, e2⟩

/-- C3, at the failing input: on the dictionary `k -> [a]`, `case "DELETE"` with
key `k` and the value `b`, which is not in `k`'s sequence, removes the key `k`
and finds nothing, where a no-op would leave `k -> [a]` and find `[a]`. -/
theorem caseDELETE_absent_value_removes_key :
    dictIndex (dictAssign emptyDict "k".toList ["a".toList]) "k".toList = ["a".toList]
    ∧ "b".toList ∉ dictIndex (dictAssign emptyDict "k".toList ["a".toList]) "k".toList
    ∧ (caseDELETE (dictAssign emptyDict "k".toList ["a".toList]) "k".toList "b".toList).map
        (fun r => (r.1 "k".toList, r.2)) = some (none, [])
    ∧ (handleRequest (dictAssign emptyDict "k".toList ["a".toList])
        "DELETE <k> <b>\n".toList).map (fun r => (r.1 "k".toList, r.2))
        = some (none, "404\n".toList) := by
  decide

/-! ## Helper lemmas: the handler and the two invariants -/

theorem dupFree_assign (d : Dict) (key : Str) (vs : List Str) (hd : DupFree d)
    (hvs : vs.Nodup) : DupFree (dictAssign d key vs) := by
  intro k
  by_cases hk : k = key
  · subst hk; rw [dictIndex_assign_same]; exact hvs
  · rw [dictIndex_assign_other _ _ _ _ hk]; exact hd k

theorem dupFree_delete (d : Dict) (key : Str) (hd : DupFree d) :
    DupFree (dictDelete d key) := by
  intro k
  by_cases hk : k = key
  · subst hk; rw [dictIndex_delete_same]; exact List.nodup_nil
  · rw [dictIndex_delete_other _ _ _ hk]; exact hd k

theorem noEmptyEntry_assign (d : Dict) (key : Str) (vs : List Str) (hd : NoEmptyEntry d)
    (hvs : vs ≠ []) : NoEmptyEntry (dictAssign d key vs) := by
  intro k ws hk
  by_cases h : k = key
  · simp [dictAssign, h] at hk; rw [← hk]; exact hvs
  · simp [dictAssign, h] at hk; exact hd k ws hk

theorem noEmptyEntry_delete (d : Dict) (key : Str) (hd : NoEmptyEntry d) :
    NoEmptyEntry (dictDelete d key) := by
  intro k ws hk
  by_cases h : k = key
  · simp [dictDelete, h] at hk
  · simp [dictDelete, h] at hk; exact hd k ws hk

theorem casePUT_noEmptyEntry (d : Dict) (key value : Str) (hd : NoEmptyEntry d) :
    NoEmptyEntry (casePUT d key value).1 := by
  rw [casePUT_fst]
  by_cases h : value ∈ dictIndex d key
  · simpa [h] using hd
  · simp only [h, if_false]
    exact noEmptyEntry_assign d key _ hd (by simp)

theorem caseDELETE_invariant (d d1 : Dict) (key value : Str) (found : List Str)
    (hd : DupFree d) (hn : NoEmptyEntry d) (h : caseDELETE d key value = some (d1, found)) :
    DupFree d1 ∧ NoEmptyEntry d1 := by
  rw [caseDELETE_of_nodup d key value (hd key)] at h
  by_cases h1 : (dictIndex d key).length = 1
  · simp only [h1, if_true, Option.some.injEq, Prod.mk.injEq] at h
    rw [← h.1]
    exact ⟨dupFree_delete d key hd, noEmptyEntry_delete d key hn⟩
  · by_cases h2 : (dictIndex d key).length > 1
    · simp only [h1, h2, if_true, if_false, Option.some.injEq, Prod.mk.injEq] at h
      rw [← h.1]
      refine ⟨dupFree_assign d key _ hd (List.Nodup.erase value (hd key)), ?_⟩
      apply noEmptyEntry_assign d key _ hn
      intro hnil
      have hlen := List.length_erase value (dictIndex d key)
      rw [hnil] at hlen
      by_cases hm : value ∈ dictIndex d key
      · simp [hm] at hlen; omega
      · simp [hm] at hlen; omega
    · simp only [h1, h2, if_false, Option.some.injEq, Prod.mk.injEq] at h
      rw [← h.1]
      exact ⟨hd, hn⟩

theorem dispatch_invariant (d d1 : Dict) (queryType key value : Str) (found : List Str)
    (hd : DupFree d) (hn : NoEmptyEntry d)
    (h : dispatch d queryType key value = some (d1, found)) :
    DupFree d1 ∧ NoEmptyEntry d1 := by
  unfold dispatch at h
  by_cases hG : queryType = "GET".toList
  · rw [if_pos hG] at h
    simp only [caseGET, Option.some.injEq, Prod.mk.injEq] at h
    rw [← h.1]; exact ⟨hd, hn⟩
  · rw [if_neg hG] at h
    by_cases hP : queryType = "PUT".toList
    · rw [if_pos hP] at h
      simp only [Option.some.injEq] at h
      have e : d1 = (casePUT d key value).1 := by rw [h]
      rw [e]
      exact ⟨casePUT_dupFree d key value hd, casePUT_noEmptyEntry d key value hn⟩
    · rw [if_neg hP] at h
      by_cases hD : queryType = "DELETE".toList
      · rw [if_pos hD] at h
        exact caseDELETE_invariant d d1 key value found hd hn h
      · rw [if_neg hD] at h
        simp only [Option.some.injEq, Prod.mk.injEq] at h
        rw [← h.1]; exact ⟨hd, hn⟩

theorem handleRequest_eq (d : Dict) (data t0 t1 : Str)
    (hsplit : SplitN (TrimSpace data) = [t0, t1]) :
    handleRequest d data =
      (dispatch d (TrimSpace t0) (parseArgs (TrimSpace t0) (TrimSpace t1)).1
        (parseArgs (TrimSpace t0) (TrimSpace t1)).2).map (fun r => (r.1, respond r.2)) := by
  unfold handleRequest
  rw [hsplit]
  simp only []
  cases dispatch d (TrimSpace t0) (parseArgs (TrimSpace t0) (TrimSpace t1)).1
      (parseArgs (TrimSpace t0) (TrimSpace t1)).2 with
  | none => rfl
  | some r => rfl

theorem handleRequest_some (d d1 : Dict) (data resp : Str)
    (h : handleRequest d data = some (d1, resp)) :
    ∃ queryType key value found,
      dispatch d queryType key value = some (d1, found) ∧ resp = respond found := by
  unfold handleRequest at h
  split at h
  · rename_i t0 t1 _
    split at h
    · rename_i d2 found hdis
      simp only [Option.some.injEq, Prod.mk.injEq] at h
      exact ⟨_, _, _, found, by rw [hdis, h.1], h.2.symm⟩
    · exact absurd h (by simp)
  · exact absurd h (by simp)

theorem handleRequest_invariant (d d1 : Dict) (data resp : Str)
    (hd : DupFree d) (hn : NoEmptyEntry d) (h : handleRequest d data = some (d1, resp)) :
    DupFree d1 ∧ NoEmptyEntry d1 := by
  obtain ⟨queryType, key, value, found, hdis, _⟩ := handleRequest_some d d1 data resp h
  exact dispatch_invariant d d1 queryType key value found hd hn hdis

theorem reachable_invariant (d : Dict) (h : Reachable d) : DupFree d ∧ NoEmptyEntry d := by
  induction h with
  | init =>
    refine ⟨fun k => ?_, fun k vs hk => ?_⟩
    · simp [dictIndex, emptyDict]
    · simp [emptyDict] at hk
  | step _ hstep ih => exact handleRequest_invariant _ _ _ _ ih.1 ih.2 hstep

theorem caseDELETE_dupFree (d : Dict) (key value : Str) (hd : DupFree d) :
    ∃ d1 found, caseDELETE d key value = some (d1, found) ∧ DupFree d1 := by
  rw [caseDELETE_of_nodup d key value (hd key)]
  by_cases h1 : (dictIndex d key).length = 1
  · rw [if_pos h1]
    exact ⟨_, _, rfl, dupFree_delete d key hd⟩
  · rw [if_neg h1]
    by_cases h2 : (dictIndex d key).length > 1
    · rw [if_pos h2]
      exact ⟨_, _, rfl, dupFree_assign d key _ hd (List.Nodup.erase value (hd key))⟩
    · rw [if_neg h2]
      exact ⟨_, _, rfl, hd⟩

theorem handleRequest_put_fruit_apple :
    handleRequest emptyDict "PUT <fruit> <apple>\n".toList
      = some (dictAssign emptyDict "fruit".toList ["apple".toList],
          "200 <apple>\n".toList) := by
  rfl

theorem reachable_fruit_apple :
    Reachable (dictAssign emptyDict "fruit".toList ["apple".toList]) :=
  Reachable.step Reachable.init handleRequest_put_fruit_apple

/-! ## The claims on the handler as a whole -/

/-- C4, at the failing input: the lines `GET` and the empty line, each ended by a
newline, have no space once trimmed, so `SplitN` returns one piece and the index
`tmpN[1]` panics: the handler writes no response, already on the empty
dictionary the server starts with. -/
theorem handleRequest_panics_without_space :
    Reachable emptyDict
    ∧ SplitN (TrimSpace "GET\n".toList) = ["GET".toList]
    ∧ handleRequest emptyDict "GET\n".toList = none
    ∧ handleRequest emptyDict "\n".toList = none :=
  ⟨Reachable.init, by decide, rfl, rfl⟩

/-- C5 as stated fails: the line `PUT x` has the keyword `PUT` and an argument
that does not match the pattern of two bracketed tokens, and the response on the
empty dictionary is `200 <>`, not `404`. And the line `DELETE` with a space and
an empty argument string has no space once trimmed: the index `tmpN[1]` panics
and nothing is answered. -/
theorem handleRequest_malformed_put_answers_200 :
    (SplitN (TrimSpace "PUT x\n".toList) = ["PUT".toList, "x".toList]
      ∧ findPut (TrimSpace "x".toList) = none
      ∧ (handleRequest emptyDict "PUT x\n".toList).map Prod.snd = some "200 <>\n".toList
      ∧ "200 <>\n".toList ≠ "404\n".toList)
    ∧ (cutAtSpace "DELETE \n".toList = some ("DELETE".toList, "\n".toList)
      ∧ findPut (TrimSpace "\n".toList) = none
      ∧ handleRequest emptyDict "DELETE \n".toList = none) :=
  ⟨by decide, by decide, by decide, rfl⟩

/-- C5, amended. For a request line whose trimmed text has a space, with a keyword
`GET`, `PUT` or `DELETE` (the text before the first space, trimmed) whose
argument (the text after it, trimmed) does not match the pattern of the keyword,
`key` and `value` stay empty
and the handler runs the case of the keyword on the empty key and the empty
value; for `GET` and `DELETE` on a dictionary with no value under the empty key
the response is `404` and a newline, and the dictionary is unchanged. -/
theorem handleRequest_malformed (d : Dict) (data t0 t1 : Str)
    (hsplit : SplitN (TrimSpace data) = [t0, t1])
    (hkw : TrimSpace t0 = "GET".toList ∨ TrimSpace t0 = "PUT".toList
      ∨ TrimSpace t0 = "DELETE".toList)
    (hget : TrimSpace t0 = "GET".toList → findGet (TrimSpace t1) = none)
    (hput : TrimSpace t0 ≠ "GET".toList → findPut (TrimSpace t1) = none) :
    parseArgs (TrimSpace t0) (TrimSpace t1) = ([], [])
    ∧ handleRequest d data
        = (dispatch d (TrimSpace t0) [] []).map (fun r => (r.1, respond r.2))
    ∧ (TrimSpace t0 ≠ "PUT".toList → dictIndex d [] = [] →
        handleRequest d data = some (d, "404\n".toList)) := by
  have hparse : parseArgs (TrimSpace t0) (TrimSpace t1) = ([], []) := by
    unfold parseArgs
    by_cases hG : TrimSpace t0 = "GET".toList
    · rw [if_pos hG, hget hG]
    · rw [if_neg hG, hput hG]
      by_cases hP : TrimSpace t0 = "PUT".toList
      · rw [if_pos hP]
      · rw [if_neg hP]
        by_cases hD : TrimSpace t0 = "DELETE".toList
        · rw [if_pos hD]
        · rw [if_neg hD]
  have heq := handleRequest_eq d data t0 t1 hsplit
  rw [hparse] at heq
  refine ⟨hparse, heq, ?_⟩
  intro hnP hnil
  rw [heq]
  unfold dispatch
  rcases hkw with hG | hP | hD
  · rw [if_pos hG]; simp [caseGET, hnil]; rfl
  · exact absurd hP hnP
  · have hnG : TrimSpace t0 ≠ "GET".toList := by rw [hD]; decide
    rw [if_neg hnG, if_neg hnP, if_pos hD]
    simp [caseDELETE, hnil]; rfl

/-- C5 amended, on a concrete line: `GET x` on the empty dictionary is answered
by `404` and a newline. -/
theorem handleRequest_malformed_witness :
    SplitN (TrimSpace "GET x\n".toList) = ["GET".toList, "x".toList]
    ∧ findGet (TrimSpace "x".toList) = none
    ∧ handleRequest emptyDict "GET x\n".toList = some (emptyDict, "404\n".toList) :=
  ⟨by decide, by decide,
   (handleRequest_malformed emptyDict "GET x\n".toList "GET".toList "x".toList (by decide)
      (Or.inl (by decide)) (fun _ => by decide) (fun h => absurd (by decide) h)).2.2
      (by decide) rfl⟩

/-- C6. In every dictionary reachable from the empty one by request lines that
`handleRequest` handles, a key that is present has a non-empty value sequence,
and so has every key after one more request. -/
theorem reachable_noEmptyEntry (d : Dict) (h : Reachable d) :
    (∀ (k : Str) (vs : List Str), d k = some vs → vs ≠ [])
    ∧ (∀ (data resp : Str) (d1 : Dict), handleRequest d data = some (d1, resp) →
        ∀ (k : Str) (vs : List Str), d1 k = some vs → vs ≠ []) :=
  ⟨(reachable_invariant d h).2,
   fun _ _ d1 hstep => (reachable_invariant d1 (Reachable.step h hstep)).2⟩

/-- C6, on the dictionary reached by `PUT <fruit> <apple>`. -/
theorem reachable_noEmptyEntry_witness :
    Reachable (dictAssign emptyDict "fruit".toList ["apple".toList])
    ∧ dictAssign emptyDict "fruit".toList ["apple".toList] "fruit".toList
        = some ["apple".toList]
    ∧ ["apple".toList] ≠ [] :=
  ⟨reachable_fruit_apple, rfl,
   (reachable_noEmptyEntry _ reachable_fruit_apple).1 "fruit".toList ["apple".toList] rfl⟩

/-- C7. In every dictionary reachable from the empty one by request lines that
`handleRequest` handles, no value sequence holds a value twice; and on every
duplicate-free dictionary the cases `GET`, `PUT` and `DELETE` end (`DELETE`
without a panic) in a duplicate-free dictionary. -/
theorem reachable_dupFree (d : Dict) :
    (Reachable d → ∀ k : Str, (dictIndex d k).Nodup)
    ∧ (DupFree d → ∀ key value : Str,
        DupFree (caseGET d key).1 ∧ DupFree (casePUT d key value).1
        ∧ ∃ d1 found, caseDELETE d key value = some (d1, found) ∧ DupFree d1) :=
  ⟨fun h => (reachable_invariant d h).1,
   fun hd key value => ⟨hd, casePUT_dupFree d key value hd, caseDELETE_dupFree d key value hd⟩⟩

/-- C7, on the dictionary reached by `PUT <fruit> <apple>`. -/
theorem reachable_dupFree_witness :
    Reachable (dictAssign emptyDict "fruit".toList ["apple".toList])
    ∧ (dictIndex (dictAssign emptyDict "fruit".toList ["apple".toList])
        "fruit".toList).Nodup :=
  ⟨reachable_fruit_apple,
   (reachable_dupFree _).1 reachable_fruit_apple "fruit".toList⟩

/-! ## Repeated and successive `PUT`s, and the response text -/

theorem casePUT_fixed (d : Dict) (k v : Str) (h : v ∈ dictIndex d k) :
    (casePUT d k v).1 = d := by
  rw [casePUT_fst]; simp [h]

theorem iterate_casePUT_fixed (k v : Str) (n : Nat) :
    ∀ d : Dict, v ∈ dictIndex d k →
      Nat.iterate (fun d0 : Dict => (casePUT d0 k v).1) n d = d := by
  induction n with
  | zero => intro d _; rfl
  | succ n ih =>
    intro d h
    show Nat.iterate (fun d0 : Dict => (casePUT d0 k v).1) n ((casePUT d k v).1) = d
    rw [casePUT_fixed d k v h]
    exact ih d h

theorem count_eq_one_of_nodup (l : List Str) (a : Str) (hnd : l.Nodup) (h : a ∈ l) :
    l.count a = 1 := by
  induction l with
  | nil => simp at h
  | cons x xs ih =>
    have hx : x ∉ xs := (List.nodup_cons.mp hnd).1
    have hxs : xs.Nodup := (List.nodup_cons.mp hnd).2
    rw [List.count_cons]
    by_cases hax : a = x
    · subst hax
      rw [List.count_eq_zero_of_not_mem hx]; simp
    · have hmem : a ∈ xs := by
        rcases List.mem_cons.mp h with h1 | h1
        · exact absurd h1 hax
        · exact h1
      have hne : (x == a) = false := by
        simpa using fun h2 : x = a => hax h2.symm
      rw [ih hxs hmem, hne]; simp

theorem foldl_casePUT_index (k : Str) (xs : List Str) :
    ∀ d : Dict, (dictIndex d k ++ xs).Nodup →
      dictIndex (xs.foldl (fun d0 x => (casePUT d0 k x).1) d) k = dictIndex d k ++ xs := by
  induction xs with
  | nil => intro d _; simp
  | cons x xs ih =>
    intro d hnd
    have hx : x ∉ dictIndex d k := by
      intro hmem
      have := (List.nodup_append.mp hnd).2.2
      exact this hmem (List.mem_cons_self x xs)
    have hidx : dictIndex (casePUT d k x).1 k = dictIndex d k ++ [x] := by
      rw [casePUT_index_same]; simp [hx]
    rw [List.foldl_cons, ih (casePUT d k x).1 (by rw [hidx]; simpa using hnd), hidx]
    simp

theorem foldl_respond (found : List Str) :
    ∀ acc : Str, found.foldl (fun tmp2 el => tmp2 ++ (" <".toList ++ el ++ ">".toList)) acc
      = acc ++ (found.map (fun el => " <".toList ++ el ++ ">".toList)).flatten := by
  induction found with
  | nil => intro acc; simp
  | cons v vs ih => intro acc; rw [List.foldl_cons, ih]; simp

theorem flatten_items (v : Str) (vs : List Str) :
    ((v :: vs).map (fun el => " <".toList ++ el ++ ">".toList)).flatten
      = ' ' :: [' '].intercalate ((v :: vs).map (fun el => '<' :: el ++ ['>'])) := by
  induction vs generalizing v with
  | nil => simp [List.intercalate, List.intersperse]
  | cons w ws ih =>
    have h := ih w
    simp only [List.map_cons, List.flatten_cons] at h ⊢
    rw [h]
    simp [List.intercalate, List.intersperse]

/-- C8. On a duplicate-free dictionary, after `n >= 1` runs of `PUT k v` the
sequence that `GET k` finds holds `v` exactly once, and the dictionary is the one
the first run left. -/
theorem casePUT_idempotent (d : Dict) (k v : Str) (n : Nat) (hd : DupFree d) (hn : 1 ≤ n) :
    ((caseGET (Nat.iterate (fun d0 : Dict => (casePUT d0 k v).1) n d) k).2).count v = 1
    ∧ Nat.iterate (fun d0 : Dict => (casePUT d0 k v).1) n d = (casePUT d k v).1 := by
  obtain ⟨m, rfl⟩ : ∃ m, n = m + 1 := ⟨n - 1, by omega⟩
  have hiter : Nat.iterate (fun d0 : Dict => (casePUT d0 k v).1) (m + 1) d
      = (casePUT d k v).1 :=
    iterate_casePUT_fixed k v m (casePUT d k v).1 (casePUT_mem d k v)
  refine ⟨?_, hiter⟩
  rw [hiter]
  exact count_eq_one_of_nodup _ v (casePUT_dupFree d k v hd k) (casePUT_mem d k v)

/-- C8, on a concrete dictionary: three runs of `PUT fruit apple` on
`fruit -> [apple]`, which holds `apple` already. -/
theorem casePUT_idempotent_witness :
    ((caseGET (Nat.iterate (fun d0 : Dict => (casePUT d0 "fruit".toList "apple".toList).1) 3
        (dictAssign emptyDict "fruit".toList ["apple".toList])) "fruit".toList).2).count
      "apple".toList = 1 :=
  (casePUT_idempotent (dictAssign emptyDict "fruit".toList ["apple".toList]) "fruit".toList
    "apple".toList 3
    (dupFree_assign emptyDict _ _ (fun k => by simp [dictIndex, emptyDict]) (by decide))
    (by decide)).1

/-- C9. On a dictionary without the key `k`, `PUT k x` for each `x` of a list `vs`
of distinct values, in order, makes `GET k` find exactly `vs`; and when `vs` has
two values or more, a following `DELETE k b` for a `b` of `vs` ends without a
panic and makes `GET k` find `vs` without `b`, the other values in their order. -/
theorem casePUT_order (d : Dict) (k : Str) (vs : List Str) (habs : d k = none)
    (hvs : vs.Nodup) :
    (caseGET (vs.foldl (fun d0 x => (casePUT d0 k x).1) d) k).2 = vs
    ∧ ∀ b : Str, b ∈ vs → 2 ≤ vs.length →
        ∃ d2 found, caseDELETE (vs.foldl (fun d0 x => (casePUT d0 k x).1) d) k b
            = some (d2, found)
          ∧ (caseGET d2 k).2 = vs.filter (fun x => x != b) := by
  have hidx : dictIndex (vs.foldl (fun d0 x => (casePUT d0 k x).1) d) k = vs := by
    rw [foldl_casePUT_index k vs d (by rw [dictIndex_of_none d k habs]; simpa using hvs),
      dictIndex_of_none d k habs]
    simp
  refine ⟨hidx, ?_⟩
  intro b _ hlen
  rw [caseDELETE_of_nodup _ k b (by rw [hidx]; exact hvs), hidx]
  have h1 : ¬ vs.length = 1 := by omega
  have h2 : vs.length > 1 := by omega
  rw [if_neg h1, if_pos h2]
  refine ⟨_, _, rfl, ?_⟩
  show dictIndex (dictAssign _ k (vs.erase b)) k = _
  rw [dictIndex_assign_same]
  exact List.Nodup.erase_eq_filter hvs b

/-- C9, on the values `a`, `b`, `c`: `GET` finds `a, b, c`, and `a, c` after
`DELETE k b`. -/
theorem casePUT_order_witness :
    (caseGET (["a".toList, "b".toList, "c".toList].foldl
        (fun d0 x => (casePUT d0 "k".toList x).1) emptyDict) "k".toList).2
      = ["a".toList, "b".toList, "c".toList]
    ∧ ∃ d2 found, caseDELETE (["a".toList, "b".toList, "c".toList].foldl
          (fun d0 x => (casePUT d0 "k".toList x).1) emptyDict) "k".toList "b".toList
          = some (d2, found)
        ∧ (caseGET d2 "k".toList).2 = ["a".toList, "c".toList] :=
  ⟨(casePUT_order emptyDict "k".toList ["a".toList, "b".toList, "c".toList] rfl
      (by decide)).1,
   (casePUT_order emptyDict "k".toList ["a".toList, "b".toList, "c".toList] rfl
      (by decide)).2 "b".toList (by decide) (by decide)⟩

/-- C10. For a result sequence `v1, ..., vn` with `n >= 1` the response is `200`,
then for each value in order a space and the value between `<` and `>`, then a
newline, which is `200 <v1> <v2> ... <vn>` and a newline; for the empty sequence
it is `404` and a newline. -/
theorem respond_format :
    (∀ (v : Str) (vs : List Str),
      respond (v :: vs)
        = "200".toList ++ ((v :: vs).map (fun el => ' ' :: '<' :: el ++ ['>'])).flatten
            ++ ['\n'])
    ∧ (∀ (v : Str) (vs : List Str),
      respond (v :: vs)
        = "200 ".toList ++ [' '].intercalate ((v :: vs).map (fun el => '<' :: el ++ ['>']))
            ++ ['\n'])
    ∧ respond [] = "404\n".toList := by
  have h1 : ∀ (v : Str) (vs : List Str),
      respond (v :: vs)
        = "200".toList ++ ((v :: vs).map (fun el => " <".toList ++ el ++ ">".toList)).flatten
            ++ "\n".toList := by
    intro v vs
    unfold respond
    rw [if_pos (by simp), foldl_respond]
    simp
  refine ⟨fun v vs => h1 v vs, ?_, rfl⟩
  intro v vs
  rw [h1 v vs, flatten_items v vs]
  rfl

/-! ## Helper lemmas: the two patterns -/

theorem dotsUpTo_some {β : Type} (k : Str → Str → Option β) (n : Nat) :
    ∀ (acc s : Str) (r : β), dotsUpTo k n acc s = some r →
      ∃ pre rest, s = pre ++ rest ∧ pre.length ≤ n ∧ (∀ c ∈ pre, dot c = true)
        ∧ k (acc ++ pre) rest = some r := by
  induction n with
  | zero =>
    intro acc s r h
    rw [dotsUpTo] at h
    exact ⟨[], s, rfl, by simp, by simp, by simpa using h⟩
  | succ n ih =>
    intro acc s r h
    cases s with
    | nil =>
      rw [dotsUpTo] at h
      exact ⟨[], [], rfl, by simp, by simp, by simpa using h⟩
    | cons c s =>
      rw [dotsUpTo] at h
      by_cases hc : dot c = true
      · rw [if_pos hc] at h
        cases hrec : dotsUpTo k n (acc ++ [c]) s with
        | none =>
          rw [hrec] at h
          exact ⟨[], c :: s, rfl, by simp, by simp, by simpa using h⟩
        | some r1 =>
          rw [hrec] at h
          obtain ⟨pre, rest, e1, e2, e3, e4⟩ := ih (acc ++ [c]) s r1 hrec
          refine ⟨c :: pre, rest, by rw [e1]; rfl, by simp; omega, ?_, ?_⟩
          · intro x hx
            rcases List.mem_cons.mp hx with h1 | h1
            · rw [h1]; exact hc
            · exact e3 x h1
          · have : acc ++ c :: pre = acc ++ [c] ++ pre := by simp
            rw [this, e4]
            exact h
      · rw [if_neg hc] at h
        exact ⟨[], c :: s, rfl, by simp, by simp, by simpa using h⟩

theorem dotsUpTo_isSome {β : Type} (k : Str → Str → Option β) (n : Nat) :
    ∀ (acc pre rest : Str), pre.length ≤ n → (∀ c ∈ pre, dot c = true) →
      (k (acc ++ pre) rest).isSome = true →
      (dotsUpTo k n acc (pre ++ rest)).isSome = true := by
  induction n with
  | zero =>
    intro acc pre rest hlen _ hk
    have hp : pre = [] := List.eq_nil_of_length_eq_zero (by omega)
    subst hp
    rw [dotsUpTo]
    simpa using hk
  | succ n ih =>
    intro acc pre rest hlen hdot hk
    cases pre with
    | nil =>
      simp only [List.append_nil] at hk
      cases rest with
      | nil => rw [List.nil_append, dotsUpTo]; exact hk
      | cons c s =>
        rw [List.nil_append, dotsUpTo]
        by_cases hc : dot c = true
        · rw [if_pos hc]
          cases dotsUpTo k n (acc ++ [c]) s with
          | none => exact hk
          | some r1 => rfl
        · rw [if_neg hc]; exact hk
    | cons c pre =>
      have hc : dot c = true := hdot c (List.mem_cons_self c pre)
      rw [List.cons_append, dotsUpTo, if_pos hc]
      have hrec := ih (acc ++ [c]) pre rest (by simp at hlen; omega)
        (fun x hx => hdot x (List.mem_cons_of_mem c hx))
        (by
          have : acc ++ [c] ++ pre = acc ++ c :: pre := by simp
          rw [this]; exact hk)
      cases hd : dotsUpTo k n (acc ++ [c]) (pre ++ rest) with
      | none => rw [hd] at hrec; exact absurd hrec (by simp)
      | some r1 => rfl

theorem dotsUpTo_of_longer_none {β : Type} (k : Str → Str → Option β) (n : Nat) :
    ∀ (acc rest : Str),
      (∀ pre2 rest2 : Str, pre2 ≠ [] → rest = pre2 ++ rest2 → k (acc ++ pre2) rest2 = none) →
      dotsUpTo k n acc rest = k acc rest := by
  induction n with
  | zero => intro acc rest _; rw [dotsUpTo]
  | succ n ih =>
    intro acc rest hnone
    cases rest with
    | nil => rw [dotsUpTo]
    | cons c s =>
      rw [dotsUpTo]
      by_cases hc : dot c = true
      · rw [if_pos hc]
        have h1 : dotsUpTo k n (acc ++ [c]) s = k (acc ++ [c]) s := by
          apply ih
          intro pre2 rest2 hp hs
          have := hnone (c :: pre2) rest2 (by simp) (by rw [hs]; rfl)
          have e : acc ++ [c] ++ pre2 = acc ++ c :: pre2 := by simp
          rw [e]; exact this
        have h2 : k (acc ++ [c]) s = none := hnone [c] s (by simp) rfl
        rw [h1, h2]
      · rw [if_neg hc]

theorem dotsUpTo_first {β : Type} (k : Str → Str → Option β) (pre : Str) :
    ∀ (n : Nat) (acc rest : Str) (r : β), pre.length ≤ n → (∀ c ∈ pre, dot c = true) →
      k (acc ++ pre) rest = some r →
      (∀ pre2 rest2 : Str, pre2 ≠ [] → rest = pre2 ++ rest2 →
        k (acc ++ pre ++ pre2) rest2 = none) →
      dotsUpTo k n acc (pre ++ rest) = some r := by
  induction pre with
  | nil =>
    intro n acc rest r _ _ hk hnone
    rw [List.nil_append, dotsUpTo_of_longer_none k n acc rest (by simpa using hnone)]
    simpa using hk
  | cons c pre ih =>
    intro n acc rest r hlen hdot hk hnone
    obtain ⟨m, rfl⟩ : ∃ m, n = m + 1 := ⟨n - 1, by simp at hlen; omega⟩
    have hc : dot c = true := hdot c (List.mem_cons_self c pre)
    have e : acc ++ c :: pre = acc ++ [c] ++ pre := by simp
    rw [List.cons_append, dotsUpTo, if_pos hc,
      ih m (acc ++ [c]) rest r (by simp at hlen; omega)
        (fun x hx => hdot x (List.mem_cons_of_mem c hx)) (by rw [← e]; exact hk)
        (by intro pre2 rest2 hp hs; rw [← e]; exact hnone pre2 rest2 hp hs)]

theorem dots1to255_some {β : Type} (k : Str → Str → Option β) (s : Str) (r : β)
    (h : dots1to255 k s = some r) :
    ∃ x rest, s = x ++ rest ∧ 1 ≤ x.length ∧ x.length ≤ 255 ∧ (∀ c ∈ x, dot c = true)
      ∧ k x rest = some r := by
  cases s with
  | nil => rw [dots1to255] at h; exact absurd h (by simp)
  | cons c s =>
    rw [dots1to255] at h
    by_cases hc : dot c = true
    · rw [if_pos hc] at h
      obtain ⟨pre, rest, e1, e2, e3, e4⟩ := dotsUpTo_some k 254 [c] s r h
      refine ⟨c :: pre, rest, by rw [e1]; rfl, by simp, by simp; omega, ?_, e4⟩
      intro x hx
      rcases List.mem_cons.mp hx with h1 | h1
      · rw [h1]; exact hc
      · exact e3 x h1
    · rw [if_neg hc] at h; exact absurd h (by simp)

theorem dots1to255_isSome {β : Type} (k : Str → Str → Option β) (x rest : Str)
    (h1 : 1 ≤ x.length) (h2 : x.length ≤ 255) (hdot : ∀ c ∈ x, dot c = true)
    (hk : (k x rest).isSome = true) : (dots1to255 k (x ++ rest)).isSome = true := by
  cases x with
  | nil => simp at h1
  | cons c x =>
    have hc : dot c = true := hdot c (List.mem_cons_self c x)
    rw [List.cons_append, dots1to255, if_pos hc]
    exact dotsUpTo_isSome k 254 [c] x rest (by simp at h2; omega)
      (fun y hy => hdot y (List.mem_cons_of_mem c hy)) hk

theorem dots1to255_first {β : Type} (k : Str → Str → Option β) (x rest : Str) (r : β)
    (h1 : 1 ≤ x.length) (h2 : x.length ≤ 255) (hdot : ∀ c ∈ x, dot c = true)
    (hk : k x rest = some r)
    (hnone : ∀ pre2 rest2 : Str, pre2 ≠ [] → rest = pre2 ++ rest2 →
      k (x ++ pre2) rest2 = none) :
    dots1to255 k (x ++ rest) = some r := by
  cases x with
  | nil => simp at h1
  | cons c x =>
    have hc : dot c = true := hdot c (List.mem_cons_self c x)
    rw [List.cons_append, dots1to255, if_pos hc]
    exact dotsUpTo_first k x 254 [c] rest r (by simp at h2; omega)
      (fun y hy => hdot y (List.mem_cons_of_mem c hy)) hk hnone

theorem matchGetAt_some (s q : Str) (h : matchGetAt s = some q) :
    ∃ post, s = '<' :: q ++ '>' :: post ∧ 1 ≤ q.length ∧ q.length ≤ 255
      ∧ (∀ c ∈ q, dot c = true) := by
  cases s with
  | nil => rw [matchGetAt] at h; exact absurd h (by simp)
  | cons c s =>
    rw [matchGetAt] at h
    by_cases hc : c = '<'
    · rw [if_pos hc] at h
      obtain ⟨x, rest, e1, e2, e3, e4, e5⟩ := dots1to255_some _ s q h
      cases rest with
      | nil => simp at e5
      | cons c1 post =>
        by_cases hc1 : c1 = '>'
        · simp only [hc1, if_true, Option.some.injEq] at e5
          subst e5
          exact ⟨post, by rw [hc, e1, hc1]; rfl, e2, e3, e4⟩
        · simp [hc1] at e5
    · rw [if_neg hc] at h; exact absurd h (by simp)

theorem findGet_some (s : Str) :
    ∀ q : Str, findGet s = some q →
      ∃ pre post, s = pre ++ '<' :: q ++ '>' :: post ∧ 1 ≤ q.length ∧ q.length ≤ 255
        ∧ (∀ c ∈ q, dot c = true) := by
  induction s with
  | nil => intro q h; rw [findGet] at h; exact absurd h (by simp)
  | cons c s ih =>
    intro q h
    rw [findGet] at h
    cases hm : matchGetAt (c :: s) with
    | some q1 =>
      rw [hm] at h
      simp only [Option.some.injEq] at h
      subst h
      obtain ⟨post, e1, e2, e3, e4⟩ := matchGetAt_some _ _ hm
      exact ⟨[], post, by rw [e1]; rfl, e2, e3, e4⟩
    | none =>
      rw [hm] at h
      obtain ⟨pre, post, e1, e2, e3, e4⟩ := ih q h
      exact ⟨c :: pre, post, by rw [e1]; rfl, e2, e3, e4⟩

theorem matchGetAt_isSome (x post : Str) (h1 : 1 ≤ x.length) (h2 : x.length ≤ 255)
    (hdot : ∀ c ∈ x, dot c = true) :
    (matchGetAt ('<' :: x ++ '>' :: post)).isSome = true := by
  rw [List.cons_append, matchGetAt, if_pos rfl]
  apply dots1to255_isSome _ x ('>' :: post) h1 h2 hdot
  simp

theorem findGet_isSome (pre x post : Str) (h1 : 1 ≤ x.length) (h2 : x.length ≤ 255)
    (hdot : ∀ c ∈ x, dot c = true) :
    (findGet (pre ++ '<' :: x ++ '>' :: post)).isSome = true := by
  induction pre with
  | nil =>
    have hm := matchGetAt_isSome x post h1 h2 hdot
    rw [List.nil_append, List.cons_append, findGet]
    rw [List.cons_append] at hm
    cases hd : matchGetAt ('<' :: (x ++ '>' :: post)) with
    | none => rw [hd] at hm; exact absurd hm (by simp)
    | some q => rfl
  | cons c pre ih =>
    rw [List.cons_append, List.cons_append, findGet]
    cases matchGetAt (c :: (pre ++ '<' :: x ++ '>' :: post)) with
    | none => exact ih
    | some q => rfl

theorem findGet_wellformed (k : Str) (h1 : 1 ≤ k.length) (h2 : k.length ≤ 255)
    (hdot : ∀ c ∈ k, dot c = true) :
    findGet ('<' :: k ++ ['>']) = some k := by
  have hm : matchGetAt ('<' :: k ++ ['>']) = some k := by
    rw [List.cons_append, matchGetAt, if_pos rfl]
    apply dots1to255_first _ k ['>'] k h1 h2 hdot
    · simp
    · intro pre2 rest2 hp hs
      cases pre2 with
      | nil => exact absurd rfl hp
      | cons a pre2 =>
        have hlen := congrArg List.length hs
        simp only [List.length_cons, List.length_append, List.length_nil,
          List.length_singleton] at hlen
        have hr : rest2 = [] := List.eq_nil_of_length_eq_zero (by omega)
        rw [hr]
  rw [List.cons_append] at hm ⊢
  rw [findGet, hm]

theorem matchPutAt_some (s q v : Str) (h : matchPutAt s = some (q, v)) :
    ∃ post, s = '<' :: q ++ '>' :: ' ' :: '<' :: v ++ '>' :: post
      ∧ (1 ≤ q.length ∧ q.length ≤ 255 ∧ ∀ c ∈ q, dot c = true)
      ∧ (1 ≤ v.length ∧ v.length ≤ 255 ∧ ∀ c ∈ v, dot c = true) := by
  cases s with
  | nil => rw [matchPutAt] at h; exact absurd h (by simp)
  | cons c s =>
    rw [matchPutAt] at h
    by_cases hc : c = '<'
    · rw [if_pos hc] at h
      obtain ⟨x, rest, e1, e2, e3, e4, e5⟩ := dots1to255_some _ s (q, v) h
      match rest, e1, e5 with
      | [], _, e5 => simp at e5
      | [_], _, e5 => simp at e5
      | [_, _], _, e5 => simp at e5
      | c1 :: c2 :: c3 :: rest2, e1, e5 =>
        by_cases hcs : c1 = '>' ∧ c2 = ' ' ∧ c3 = '<'
        · simp only [hcs, and_self, if_true] at e5
          obtain ⟨y, rest3, f1, f2, f3, f4, f5⟩ := dots1to255_some _ rest2 (q, v) e5
          cases rest3 with
          | nil => simp at f5
          | cons c4 post =>
            by_cases hc4 : c4 = '>'
            · simp only [hc4, if_true, Option.some.injEq, Prod.mk.injEq] at f5
              obtain ⟨hq, hv⟩ := f5
              subst hq; subst hv
              refine ⟨post, ?_, ⟨e2, e3, e4⟩, ⟨f2, f3, f4⟩⟩
              rw [hc, e1, hcs.1, hcs.2.1, hcs.2.2, f1, hc4]
              simp
            · simp [hc4] at f5
        · simp only [hcs, if_false] at e5
          exact absurd e5 (by simp)
    · rw [if_neg hc] at h; exact absurd h (by simp)

theorem findPut_some (s : Str) :
    ∀ q v : Str, findPut s = some (q, v) →
      ∃ pre post, s = pre ++ '<' :: q ++ '>' :: ' ' :: '<' :: v ++ '>' :: post
        ∧ (1 ≤ q.length ∧ q.length ≤ 255 ∧ ∀ c ∈ q, dot c = true)
        ∧ (1 ≤ v.length ∧ v.length ≤ 255 ∧ ∀ c ∈ v, dot c = true) := by
  induction s with
  | nil => intro q v h; rw [findPut] at h; exact absurd h (by simp)
  | cons c s ih =>
    intro q v h
    rw [findPut] at h
    cases hm : matchPutAt (c :: s) with
    | some kv =>
      rw [hm] at h
      simp only [Option.some.injEq] at h
      subst h
      obtain ⟨post, e1, e2, e3⟩ := matchPutAt_some _ _ _ hm
      exact ⟨[], post, by rw [e1]; rfl, e2, e3⟩
    | none =>
      rw [hm] at h
      obtain ⟨pre, post, e1, e2, e3⟩ := ih q v h
      exact ⟨c :: pre, post, by rw [e1]; rfl, e2, e3⟩

theorem matchPutAt_isSome (x y post : Str)
    (hx : 1 ≤ x.length ∧ x.length ≤ 255 ∧ ∀ c ∈ x, dot c = true)
    (hy : 1 ≤ y.length ∧ y.length ≤ 255 ∧ ∀ c ∈ y, dot c = true) :
    (matchPutAt ('<' :: x ++ '>' :: ' ' :: '<' :: y ++ '>' :: post)).isSome = true := by
  have e : '<' :: x ++ '>' :: ' ' :: '<' :: y ++ '>' :: post
      = '<' :: (x ++ '>' :: ' ' :: '<' :: (y ++ '>' :: post)) := by simp
  rw [e, matchPutAt, if_pos rfl]
  apply dots1to255_isSome _ x _ hx.1 hx.2.1 hx.2.2
  simp only [and_self, if_true]
  apply dots1to255_isSome _ y _ hy.1 hy.2.1 hy.2.2
  simp

theorem findPut_isSome (pre x y post : Str)
    (hx : 1 ≤ x.length ∧ x.length ≤ 255 ∧ ∀ c ∈ x, dot c = true)
    (hy : 1 ≤ y.length ∧ y.length ≤ 255 ∧ ∀ c ∈ y, dot c = true) :
    (findPut (pre ++ '<' :: x ++ '>' :: ' ' :: '<' :: y ++ '>' :: post)).isSome = true := by
  induction pre with
  | nil =>
    have hm := matchPutAt_isSome x y post hx hy
    have e : [] ++ '<' :: x ++ '>' :: ' ' :: '<' :: y ++ '>' :: post
        = '<' :: (x ++ '>' :: ' ' :: '<' :: (y ++ '>' :: post)) := by simp
    have e2 : '<' :: x ++ '>' :: ' ' :: '<' :: y ++ '>' :: post
        = '<' :: (x ++ '>' :: ' ' :: '<' :: (y ++ '>' :: post)) := by simp
    rw [e2] at hm
    rw [e, findPut]
    cases hd : matchPutAt ('<' :: (x ++ '>' :: ' ' :: '<' :: (y ++ '>' :: post))) with
    | none => rw [hd] at hm; exact absurd hm (by simp)
    | some q => rfl
  | cons c pre ih =>
    have e : c :: pre ++ '<' :: x ++ '>' :: ' ' :: '<' :: y ++ '>' :: post
        = c :: (pre ++ '<' :: x ++ '>' :: ' ' :: '<' :: y ++ '>' :: post) := by simp
    rw [e, findPut]
    cases matchPutAt (c :: (pre ++ '<' :: x ++ '>' :: ' ' :: '<' :: y ++ '>' :: post)) with
    | none => exact ih
    | some q => rfl

theorem findPut_wellformed (k v : Str)
    (hk : 1 ≤ k.length ∧ k.length ≤ 255 ∧ ∀ c ∈ k, dot c = true)
    (hv : 1 ≤ v.length ∧ v.length ≤ 255 ∧ ∀ c ∈ v, dot c = true)
    (hgt : '>' ∉ v) :
    findPut ('<' :: k ++ '>' :: ' ' :: '<' :: v ++ ['>']) = some (k, v) := by
  have e : '<' :: k ++ '>' :: ' ' :: '<' :: v ++ ['>']
      = '<' :: (k ++ '>' :: ' ' :: '<' :: (v ++ ['>'])) := by simp
  have hm : matchPutAt ('<' :: (k ++ '>' :: ' ' :: '<' :: (v ++ ['>']))) = some (k, v) := by
    rw [matchPutAt, if_pos rfl]
    apply dots1to255_first _ k _ (k, v) hk.1 hk.2.1 hk.2.2
    · simp only [and_self, if_true]
      apply dots1to255_first _ v ['>'] (k, v) hv.1 hv.2.1 hv.2.2
      · simp
      · intro pre2 rest2 hp hs
        cases pre2 with
        | nil => exact absurd rfl hp
        | cons a pre2 =>
          have hlen := congrArg List.length hs
          simp only [List.length_cons, List.length_append, List.length_nil,
            List.length_singleton] at hlen
          have hr : rest2 = [] := List.eq_nil_of_length_eq_zero (by omega)
          rw [hr]
    · intro pre2 rest2 hp hs
      match pre2, hp, hs with
      | [], hp, _ => exact absurd rfl hp
      | [a], _, hs =>
        simp only [List.singleton_append, List.cons.injEq] at hs
        rw [← hs.2]
        cases v ++ ['>'] with
        | nil => rfl
        | cons y w => simp
      | [a, b], _, hs =>
        simp only [List.cons_append, List.nil_append, List.cons.injEq] at hs
        rw [← hs.2.2]
        cases v ++ ['>'] with
        | nil => rfl
        | cons y w =>
          cases w with
          | nil => rfl
          | cons z w => simp
      | a :: b :: c :: p, _, hs =>
        simp only [List.cons_append, List.cons.injEq] at hs
        have hs3 : v ++ ['>'] = p ++ rest2 := hs.2.2.2
        match rest2, hs3 with
        | [], _ => rfl
        | [_], _ => rfl
        | [_, _], _ => rfl
        | c1 :: c2 :: c3 :: rest3, hs3 =>
          have hc1 : c1 ≠ '>' := by
            intro hc
            rcases List.append_eq_append_iff.mp hs3 with ⟨a1, h1, h2⟩ | ⟨a1, h1, h2⟩
            · have hl := congrArg List.length h2
              simp only [List.length_cons, List.length_append, List.length_nil,
                List.length_singleton] at hl
              omega
            · cases a1 with
              | nil =>
                have hl := congrArg List.length h2
                simp only [List.length_cons, List.length_append, List.length_nil,
                  List.length_singleton] at hl
                omega
              | cons x a1 =>
                simp only [List.cons_append, List.cons.injEq] at h2
                apply hgt
                rw [h1, ← hc, h2.1]
                simp
          simp [hc1]
  rw [e, findPut, hm]

/-! ## Helper lemmas: the request lines of the wire format -/

theorem dot_of_no_newline (s : Str) (h : '\n' ∉ s) : ∀ c ∈ s, dot c = true := by
  intro c hc
  have : c ≠ '\n' := fun e => h (e ▸ hc)
  simpa [dot] using this

theorem no_newline_of_dot (s : Str) (h : ∀ c ∈ s, dot c = true) : '\n' ∉ s := by
  intro hmem
  have := h '\n' hmem
  simp [dot] at this

theorem TrimSpace_ends (c e : Char) (body : Str) (hc : isSpace c = false)
    (he : isSpace e = false) :
    TrimSpace (c :: body ++ [e]) = c :: body ++ [e]
    ∧ TrimSpace (c :: body ++ [e, '\n']) = c :: body ++ [e] := by
  have hn : isSpace '\n' = true := by decide
  constructor
  · unfold TrimSpace
    rw [List.cons_append, List.dropWhile_cons_of_neg (by simp [hc])]
    have : (c :: (body ++ [e])).reverse = e :: (c :: body).reverse := by simp
    rw [this, List.dropWhile_cons_of_neg (by simp [he])]
    simp
  · unfold TrimSpace
    rw [List.cons_append, List.dropWhile_cons_of_neg (by simp [hc])]
    have : (c :: (body ++ [e, '\n'])).reverse = '\n' :: e :: (c :: body).reverse := by simp
    rw [this, List.dropWhile_cons_of_pos hn, List.dropWhile_cons_of_neg (by simp [he])]
    simp

theorem TrimSpace_bracketed (body : Str) :
    TrimSpace ('<' :: body ++ ['>']) = '<' :: body ++ ['>'] :=
  (TrimSpace_ends '<' '>' body (by decide) (by decide)).1

theorem SplitN_lineGET (k : Str) :
    SplitN (TrimSpace (lineGET k)) = ["GET".toList, '<' :: k ++ ['>']] := by
  have e : lineGET k = 'G' :: ("ET <".toList ++ k) ++ ['>', '\n'] := by
    simp [lineGET]
  rw [e, (TrimSpace_ends 'G' '>' _ (by decide) (by decide)).2]
  have e2 : 'G' :: ("ET <".toList ++ k) ++ ['>']
      = 'G' :: 'E' :: 'T' :: ' ' :: ('<' :: k ++ ['>']) := by simp
  rw [e2]
  rfl

theorem SplitN_linePUT (k v : Str) :
    SplitN (TrimSpace (linePUT k v))
      = ["PUT".toList, '<' :: k ++ '>' :: ' ' :: '<' :: v ++ ['>']] := by
  have e : linePUT k v = 'P' :: ("UT <".toList ++ k ++ "> <".toList ++ v) ++ ['>', '\n'] := by
    simp [linePUT]
  rw [e, (TrimSpace_ends 'P' '>' _ (by decide) (by decide)).2]
  have e2 : 'P' :: ("UT <".toList ++ k ++ "> <".toList ++ v) ++ ['>']
      = 'P' :: 'U' :: 'T' :: ' ' :: ('<' :: k ++ '>' :: ' ' :: '<' :: v ++ ['>']) := by simp
  rw [e2]
  rfl

theorem SplitN_lineDELETE (k v : Str) :
    SplitN (TrimSpace (lineDELETE k v))
      = ["DELETE".toList, '<' :: k ++ '>' :: ' ' :: '<' :: v ++ ['>']] := by
  have e : lineDELETE k v
      = 'D' :: ("ELETE <".toList ++ k ++ "> <".toList ++ v) ++ ['>', '\n'] := by
    simp [lineDELETE]
  rw [e, (TrimSpace_ends 'D' '>' _ (by decide) (by decide)).2]
  have e2 : 'D' :: ("ELETE <".toList ++ k ++ "> <".toList ++ v) ++ ['>']
      = 'D' :: 'E' :: 'L' :: 'E' :: 'T' :: 'E' :: ' '
          :: ('<' :: k ++ '>' :: ' ' :: '<' :: v ++ ['>']) := by simp
  rw [e2]
  rfl

theorem TrimSpace_pair (k v : Str) :
    TrimSpace ('<' :: k ++ '>' :: ' ' :: '<' :: v ++ ['>'])
      = '<' :: k ++ '>' :: ' ' :: '<' :: v ++ ['>'] := by
  have e : '<' :: k ++ '>' :: ' ' :: '<' :: v ++ ['>']
      = '<' :: (k ++ '>' :: ' ' :: '<' :: v) ++ ['>'] := by simp
  rw [e]
  exact TrimSpace_bracketed _

theorem parseRequest_lineGET (k : Str) (h1 : 1 ≤ k.length) (h2 : k.length ≤ 255)
    (hn : '\n' ∉ k) : parseRequest (lineGET k) = some ("GET".toList, k, []) := by
  unfold parseRequest
  rw [SplitN_lineGET]
  have ht : TrimSpace "GET".toList = "GET".toList := by decide
  simp only [ht, TrimSpace_bracketed]
  unfold parseArgs
  rw [if_pos rfl, findGet_wellformed k h1 h2 (dot_of_no_newline k hn)]

theorem parseRequest_linePUT (k v : Str)
    (hk : 1 ≤ k.length ∧ k.length ≤ 255 ∧ '\n' ∉ k)
    (hv : 1 ≤ v.length ∧ v.length ≤ 255 ∧ '\n' ∉ v) (hgt : '>' ∉ v) :
    parseRequest (linePUT k v) = some ("PUT".toList, k, v) := by
  unfold parseRequest
  rw [SplitN_linePUT]
  have ht : TrimSpace "PUT".toList = "PUT".toList := by decide
  simp only [ht, TrimSpace_pair]
  unfold parseArgs
  rw [if_neg (by decide), if_pos rfl,
    findPut_wellformed k v ⟨hk.1, hk.2.1, dot_of_no_newline k hk.2.2⟩
      ⟨hv.1, hv.2.1, dot_of_no_newline v hv.2.2⟩ hgt]

theorem parseRequest_lineDELETE (k v : Str)
    (hk : 1 ≤ k.length ∧ k.length ≤ 255 ∧ '\n' ∉ k)
    (hv : 1 ≤ v.length ∧ v.length ≤ 255 ∧ '\n' ∉ v) (hgt : '>' ∉ v) :
    parseRequest (lineDELETE k v) = some ("DELETE".toList, k, v) := by
  unfold parseRequest
  rw [SplitN_lineDELETE]
  have ht : TrimSpace "DELETE".toList = "DELETE".toList := by decide
  simp only [ht, TrimSpace_pair]
  unfold parseArgs
  rw [if_neg (by decide), if_neg (by decide), if_pos rfl,
    findPut_wellformed k v ⟨hk.1, hk.2.1, dot_of_no_newline k hk.2.2⟩
      ⟨hv.1, hv.2.1, dot_of_no_newline v hv.2.2⟩ hgt]

theorem handleRequest_of_parseRequest (d : Dict) (data queryType key value : Str)
    (h : parseRequest data = some (queryType, key, value)) :
    handleRequest d data
      = (dispatch d queryType key value).map (fun r => (r.1, respond r.2)) := by
  unfold parseRequest at h
  split at h
  · rename_i t0 t1 hsplit
    simp only [Option.some.injEq, Prod.mk.injEq] at h
    obtain ⟨h1, h2, h3⟩ := h
    rw [handleRequest_eq d data t0 t1 hsplit, h2, h3, h1]
  · exact absurd h (by simp)

theorem parseRequest_none (d : Dict) (data : Str) (h : parseRequest data = none) :
    handleRequest d data = none := by
  unfold parseRequest at h
  unfold handleRequest
  split at h
  · exact absurd h (by simp)
  · rfl

theorem handleRequest_lineGET (d : Dict) (k : Str) (hk : Token k) :
    handleRequest d (lineGET k) = some (d, respond (dictIndex d k)) := by
  rw [handleRequest_of_parseRequest d _ _ _ _
    (parseRequest_lineGET k hk.1 hk.2.1 hk.2.2.2.2.1)]
  rfl

theorem handleRequest_linePUT (d : Dict) (k v : Str) (hk : Token k) (hv : Token v) :
    handleRequest d (linePUT k v)
      = some ((casePUT d k v).1, respond (casePUT d k v).2) := by
  rw [handleRequest_of_parseRequest d _ _ _ _
    (parseRequest_linePUT k v ⟨hk.1, hk.2.1, hk.2.2.2.2.1⟩ ⟨hv.1, hv.2.1, hv.2.2.2.2.1⟩
      hv.2.2.2.1)]
  rfl

theorem handleRequest_lineDELETE (d : Dict) (k v : Str) (hk : Token k) (hv : Token v) :
    handleRequest d (lineDELETE k v)
      = (caseDELETE d k v).map (fun r => (r.1, respond r.2)) := by
  rw [handleRequest_of_parseRequest d _ _ _ _
    (parseRequest_lineDELETE k v ⟨hk.1, hk.2.1, hk.2.2.2.2.1⟩ ⟨hv.1, hv.2.1, hv.2.2.2.2.1⟩
      hv.2.2.2.1)]
  rfl

theorem parseArgs_GET (args : Str) :
    parseArgs "GET".toList args
      = match findGet args with
        | some query => (query, [])
        | none => ([], []) := by
  unfold parseArgs
  rw [if_pos rfl]

theorem parseArgs_PUT (args : Str) :
    parseArgs "PUT".toList args
      = match findPut args with
        | some kv => kv
        | none => ([], []) := by
  unfold parseArgs
  rw [if_neg (by decide), if_pos rfl]

theorem parseArgs_DELETE (args : Str) :
    parseArgs "DELETE".toList args
      = match findPut args with
        | some kv => kv
        | none => ([], []) := by
  unfold parseArgs
  rw [if_neg (by decide), if_neg (by decide), if_pos rfl]

theorem findGet_eq_none_iff (args : Str) : findGet args = none ↔ ¬ HasGetMatch args := by
  constructor
  · intro h ⟨pre, x, post, e, h1, h2, h3⟩
    have := findGet_isSome pre x post h1 h2 (dot_of_no_newline x h3)
    rw [← e, h] at this
    exact absurd this (by simp)
  · intro h
    cases hf : findGet args with
    | none => rfl
    | some q =>
      obtain ⟨pre, post, e, h1, h2, h3⟩ := findGet_some args q hf
      exact absurd ⟨pre, q, post, e, h1, h2, no_newline_of_dot q h3⟩ h

theorem findPut_eq_none_iff (args : Str) : findPut args = none ↔ ¬ HasPutMatch args := by
  constructor
  · intro h ⟨pre, x, y, post, e, hx, hy⟩
    have := findPut_isSome pre x y post ⟨hx.1, hx.2.1, dot_of_no_newline x hx.2.2⟩
      ⟨hy.1, hy.2.1, dot_of_no_newline y hy.2.2⟩
    rw [← e, h] at this
    exact absurd this (by simp)
  · intro h
    cases hf : findPut args with
    | none => rfl
    | some kv =>
      obtain ⟨q, v⟩ := kv
      obtain ⟨pre, post, e, hq, hv⟩ := findPut_some args q v hf
      exact absurd ⟨pre, q, v, post, e, ⟨hq.1, hq.2.1, no_newline_of_dot q hq.2.2⟩,
        ⟨hv.1, hv.2.1, no_newline_of_dot v hv.2.2⟩⟩ h

theorem matchGet_pair_eq_nil_iff (args : Str) :
    (match findGet args with
      | some query => (query, ([] : Str))
      | none => ([], [])) = ([], []) ↔ findGet args = none := by
  cases hf : findGet args with
  | none => simp
  | some q =>
    obtain ⟨_, _, _, h1, _, _⟩ := findGet_some args q hf
    have : q ≠ [] := by intro e; rw [e] at h1; simp at h1
    simp [this]

theorem matchPut_pair_eq_nil_iff (args : Str) :
    (match findPut args with
      | some kv => kv
      | none => (([] : Str), ([] : Str))) = ([], []) ↔ findPut args = none := by
  cases hf : findPut args with
  | none => simp
  | some kv =>
    obtain ⟨q, v⟩ := kv
    obtain ⟨_, _, _, hq, _⟩ := findPut_some args q v hf
    have : q ≠ [] := by intro e; rw [e] at hq; simp at hq
    simp [this]

theorem not_hasGetMatch_short (args : Str) (h : args.length < 3) : ¬ HasGetMatch args := by
  intro ⟨pre, x, post, e, h1, _, _⟩
  have hl := congrArg List.length e
  simp only [List.length_cons, List.length_append] at hl
  omega

/-! ## Helper lemmas: the match that the search returns -/

theorem dotsUpTo_longest {β : Type} (k : Str → Str → Option β) (n : Nat) :
    ∀ (acc s : Str) (r : β), dotsUpTo k n acc s = some r →
      ∃ pre rest, s = pre ++ rest ∧ pre.length ≤ n ∧ (∀ c ∈ pre, dot c = true)
        ∧ k (acc ++ pre) rest = some r
        ∧ ∀ pre2 rest2 : Str, s = pre2 ++ rest2 → pre2.length ≤ n →
            (∀ c ∈ pre2, dot c = true) → pre.length < pre2.length →
            k (acc ++ pre2) rest2 = none := by
  induction n with
  | zero =>
    intro acc s r h
    rw [dotsUpTo] at h
    refine ⟨[], s, rfl, by simp, by simp, by simpa using h, ?_⟩
    intro pre2 rest2 _ h2 _ h4
    simp at h4
    omega
  | succ n ih =>
    intro acc s r h
    cases s with
    | nil =>
      rw [dotsUpTo] at h
      refine ⟨[], [], rfl, by simp, by simp, by simpa using h, ?_⟩
      intro pre2 rest2 h1 _ _ h4
      have hl := congrArg List.length h1
      simp only [List.length_nil, List.length_append] at hl
      simp only [List.length_nil] at h4
      omega
    | cons c s =>
      rw [dotsUpTo] at h
      by_cases hc : dot c = true
      · rw [if_pos hc] at h
        cases hrec : dotsUpTo k n (acc ++ [c]) s with
        | none =>
          rw [hrec] at h
          refine ⟨[], c :: s, rfl, by simp, by simp, by simpa using h, ?_⟩
          intro pre2 rest2 h1 h2 h3 h4
          cases pre2 with
          | nil => simp at h4
          | cons c2 pre2 =>
            rw [List.cons_append] at h1
            obtain ⟨e1, e2⟩ := List.cons.inj h1
            cases hk : k (acc ++ c2 :: pre2) rest2 with
            | none => rfl
            | some r2 =>
              have hs := dotsUpTo_isSome k n (acc ++ [c]) pre2 rest2
                (by simp only [List.length_cons] at h2; omega)
                (fun x hx => h3 x (List.mem_cons_of_mem c2 hx))
                (by
                  have e : acc ++ [c] ++ pre2 = acc ++ c2 :: pre2 := by rw [e1]; simp
                  rw [e, hk]; rfl)
              rw [← e2, hrec] at hs
              exact absurd hs (by simp)
        | some r1 =>
          rw [hrec] at h
          obtain ⟨pre, rest, e1, e2, e3, e4, e5⟩ := ih (acc ++ [c]) s r1 hrec
          refine ⟨c :: pre, rest, by rw [e1]; rfl, by simp; omega, ?_, ?_, ?_⟩
          · intro x hx
            rcases List.mem_cons.mp hx with h1 | h1
            · rw [h1]; exact hc
            · exact e3 x h1
          · have : acc ++ c :: pre = acc ++ [c] ++ pre := by simp
            rw [this, e4]
            exact h
          · intro pre2 rest2 h1 h2 h3 h4
            cases pre2 with
            | nil => simp at h4
            | cons c2 pre2 =>
              rw [List.cons_append] at h1
              obtain ⟨f1, f2⟩ := List.cons.inj h1
              have := e5 pre2 rest2 f2 (by simp only [List.length_cons] at h2; omega)
                (fun x hx => h3 x (List.mem_cons_of_mem c2 hx))
                (by simp only [List.length_cons] at h4; omega)
              have e : acc ++ c2 :: pre2 = acc ++ [c] ++ pre2 := by rw [f1]; simp
              rw [e]; exact this
      · rw [if_neg hc] at h
        refine ⟨[], c :: s, rfl, by simp, by simp, by simpa using h, ?_⟩
        intro pre2 rest2 h1 _ h3 h4
        cases pre2 with
        | nil => simp at h4
        | cons c2 pre2 =>
          rw [List.cons_append] at h1
          obtain ⟨f1, _⟩ := List.cons.inj h1
          have := h3 c2 (List.mem_cons_self c2 pre2)
          rw [← f1] at this
          exact absurd this hc

theorem dots1to255_longest {β : Type} (k : Str → Str → Option β) (s : Str) (r : β)
    (h : dots1to255 k s = some r) :
    ∃ x rest, s = x ++ rest ∧ 1 ≤ x.length ∧ x.length ≤ 255 ∧ (∀ c ∈ x, dot c = true)
      ∧ k x rest = some r
      ∧ ∀ x2 rest2 : Str, s = x2 ++ rest2 → x2.length ≤ 255 →
          (∀ c ∈ x2, dot c = true) → x.length < x2.length → k x2 rest2 = none := by
  cases s with
  | nil => rw [dots1to255] at h; exact absurd h (by simp)
  | cons c s =>
    rw [dots1to255] at h
    by_cases hc : dot c = true
    · rw [if_pos hc] at h
      obtain ⟨pre, rest, e1, e2, e3, e4, e5⟩ := dotsUpTo_longest k 254 [c] s r h
      refine ⟨c :: pre, rest, by rw [e1]; rfl, by simp, by simp; omega, ?_, e4, ?_⟩
      · intro x hx
        rcases List.mem_cons.mp hx with h1 | h1
        · rw [h1]; exact hc
        · exact e3 x h1
      · intro x2 rest2 h1 h2 h3 h4
        cases x2 with
        | nil => simp at h4
        | cons c2 x2 =>
          rw [List.cons_append] at h1
          obtain ⟨f1, f2⟩ := List.cons.inj h1
          have := e5 x2 rest2 f2 (by simp only [List.length_cons] at h2; omega)
            (fun y hy => h3 y (List.mem_cons_of_mem c2 hy))
            (by simp only [List.length_cons] at h4; omega)
          rw [← f1]
          exact this
    · rw [if_neg hc] at h; exact absurd h (by simp)

theorem matchGetAt_longest (s q : Str) (h : matchGetAt s = some q) :
    ∃ post, IsGetMatch s [] q post
      ∧ ∀ x post1 : Str, IsGetMatch s [] x post1 → x.length ≤ q.length := by
  cases s with
  | nil => rw [matchGetAt] at h; exact absurd h (by simp)
  | cons c s =>
    rw [matchGetAt] at h
    by_cases hc : c = '<'
    · rw [if_pos hc] at h
      obtain ⟨x, rest, e1, e2, e3, e4, e5, e6⟩ := dots1to255_longest _ s q h
      cases rest with
      | nil => simp at e5
      | cons c1 post =>
        by_cases hc1 : c1 = '>'
        · simp only [hc1, if_true, Option.some.injEq] at e5
          subst e5
          refine ⟨post, ⟨by rw [hc, e1, hc1]; rfl, e2, e3, no_newline_of_dot x e4⟩, ?_⟩
          intro y post1 hy
          obtain ⟨g1, _, g3, g4⟩ := hy
          rw [List.nil_append, List.cons_append] at g1
          have g5 : s = y ++ '>' :: post1 := (List.cons.inj g1).2
          by_cases hlt : x.length < y.length
          · have := e6 y ('>' :: post1) g5 g3 (dot_of_no_newline y g4) hlt
            simp at this
          · omega
        · simp [hc1] at e5
    · rw [if_neg hc] at h; exact absurd h (by simp)

theorem findGet_leftmost (s : Str) :
    ∀ q : Str, findGet s = some q →
      ∃ pre post, IsGetMatch s pre q post
        ∧ ∀ pre1 x post1 : Str, IsGetMatch s pre1 x post1 →
            pre.length < pre1.length ∨ (pre.length = pre1.length ∧ x.length ≤ q.length) := by
  induction s with
  | nil => intro q h; rw [findGet] at h; exact absurd h (by simp)
  | cons c s ih =>
    intro q h
    rw [findGet] at h
    cases hm : matchGetAt (c :: s) with
    | some q1 =>
      rw [hm] at h
      simp only [Option.some.injEq] at h
      subst h
      obtain ⟨post, e1, e2⟩ := matchGetAt_longest _ _ hm
      refine ⟨[], post, e1, ?_⟩
      intro pre1 x post1 hx
      cases pre1 with
      | nil => exact Or.inr ⟨rfl, e2 x post1 hx⟩
      | cons c1 pre1 => exact Or.inl (by simp)
    | none =>
      rw [hm] at h
      obtain ⟨pre, post, e1, e2⟩ := ih q h
      refine ⟨c :: pre, post, ⟨by rw [e1.1]; rfl, e1.2⟩, ?_⟩
      intro pre1 x post1 hx
      cases pre1 with
      | nil =>
        obtain ⟨g1, g2, g3, g4⟩ := hx
        have := matchGetAt_isSome x post1 g2 g3 (dot_of_no_newline x g4)
        rw [List.nil_append] at g1
        rw [← g1, hm] at this
        exact absurd this (by simp)
      | cons c1 pre1 =>
        obtain ⟨g1, g2⟩ := hx
        have g5 : s = pre1 ++ '<' :: x ++ '>' :: post1 := by
          have e : c1 :: pre1 ++ '<' :: x ++ '>' :: post1
              = c1 :: (pre1 ++ '<' :: x ++ '>' :: post1) := by simp
          rw [e] at g1
          exact (List.cons.inj g1).2
        rcases e2 pre1 x post1 ⟨g5, g2⟩ with h1 | h1
        · exact Or.inl (by simp only [List.length_cons]; omega)
        · exact Or.inr ⟨by simp only [List.length_cons]; omega, h1.2⟩

theorem matchPutAt_longest (s q v : Str) (h : matchPutAt s = some (q, v)) :
    ∃ post, IsPutMatch s [] q v post
      ∧ ∀ x y post1 : Str, IsPutMatch s [] x y post1 →
          x.length < q.length ∨ (x.length = q.length ∧ y.length ≤ v.length) := by
  cases s with
  | nil => rw [matchPutAt] at h; exact absurd h (by simp)
  | cons c s =>
    rw [matchPutAt] at h
    by_cases hc : c = '<'
    · rw [if_pos hc] at h
      obtain ⟨x0, rest, e1, e2, e3, e4, e5, e6⟩ := dots1to255_longest _ s (q, v) h
      match rest, e1, e5 with
      | [], _, e5 => simp at e5
      | [_], _, e5 => simp at e5
      | [_, _], _, e5 => simp at e5
      | c1 :: c2 :: c3 :: rest2, e1, e5 =>
        by_cases hcs : c1 = '>' ∧ c2 = ' ' ∧ c3 = '<'
        · simp only [hcs, and_self, if_true] at e5
          obtain ⟨y0, rest3, f1, f2, f3, f4, f5, f6⟩ := dots1to255_longest _ rest2 (q, v) e5
          cases rest3 with
          | nil => simp at f5
          | cons c4 post =>
            by_cases hc4 : c4 = '>'
            · simp only [hc4, if_true, Option.some.injEq, Prod.mk.injEq] at f5
              obtain ⟨hq, hv⟩ := f5
              subst hq; subst hv
              have hs : s = x0 ++ '>' :: ' ' :: '<' :: (y0 ++ '>' :: post) := by
                rw [e1, hcs.1, hcs.2.1, hcs.2.2, f1, hc4]
              refine ⟨post, ⟨?_, ⟨e2, e3, no_newline_of_dot x0 e4⟩,
                ⟨f2, f3, no_newline_of_dot y0 f4⟩⟩, ?_⟩
              · rw [hc, hs]; simp
              · intro x y post1 hxy
                obtain ⟨g1, gx, gy⟩ := hxy
                have g2 : s = x ++ '>' :: ' ' :: '<' :: (y ++ '>' :: post1) := by
                  have e : [] ++ '<' :: x ++ '>' :: ' ' :: '<' :: y ++ '>' :: post1
                      = '<' :: (x ++ '>' :: ' ' :: '<' :: (y ++ '>' :: post1)) := by simp
                  rw [e] at g1
                  exact (List.cons.inj g1).2
                by_cases hlt : x0.length < x.length
                · have hnone := e6 x _ g2 gx.2.1 (dot_of_no_newline x gx.2.2) hlt
                  simp only [and_self, if_true] at hnone
                  have hsome := dots1to255_isSome
                    (fun value rest3 =>
                      match rest3 with
                      | [] => none
                      | c4 :: _ => if c4 = '>' then some (x, value) else none)
                    y ('>' :: post1) gy.1 gy.2.1 (dot_of_no_newline y gy.2.2) (by simp)
                  rw [hnone] at hsome
                  exact absurd hsome (by simp)
                · by_cases hlt2 : x.length < x0.length
                  · exact Or.inl hlt2
                  · have hlen : x.length = x0.length := by omega
                    refine Or.inr ⟨hlen, ?_⟩
                    have hxe := List.append_inj (g2.symm.trans hs) hlen
                    obtain ⟨hx1, hx2⟩ := hxe
                    have hy2 : y ++ '>' :: post1 = y0 ++ '>' :: post := by
                      simp only [List.cons.injEq, true_and] at hx2
                      exact hx2
                    by_cases hlt3 : y0.length < y.length
                    · have hnone := f6 y ('>' :: post1) (by rw [f1, hc4, hy2]) gy.2.1
                        (dot_of_no_newline y gy.2.2) hlt3
                      simp at hnone
                    · omega
            · simp [hc4] at f5
        · simp only [hcs, if_false] at e5
          exact absurd e5 (by simp)
    · rw [if_neg hc] at h; exact absurd h (by simp)

theorem findPut_leftmost (s : Str) :
    ∀ q v : Str, findPut s = some (q, v) →
      ∃ pre post, IsPutMatch s pre q v post
        ∧ ∀ pre1 x y post1 : Str, IsPutMatch s pre1 x y post1 →
            pre.length < pre1.length
            ∨ (pre.length = pre1.length
              ∧ (x.length < q.length ∨ (x.length = q.length ∧ y.length ≤ v.length))) := by
  induction s with
  | nil => intro q v h; rw [findPut] at h; exact absurd h (by simp)
  | cons c s ih =>
    intro q v h
    rw [findPut] at h
    cases hm : matchPutAt (c :: s) with
    | some kv =>
      rw [hm] at h
      simp only [Option.some.injEq] at h
      subst h
      obtain ⟨post, e1, e2⟩ := matchPutAt_longest _ _ _ hm
      refine ⟨[], post, e1, ?_⟩
      intro pre1 x y post1 hx
      cases pre1 with
      | nil => exact Or.inr ⟨rfl, e2 x y post1 hx⟩
      | cons c1 pre1 => exact Or.inl (by simp)
    | none =>
      rw [hm] at h
      obtain ⟨pre, post, e1, e2⟩ := ih q v h
      refine ⟨c :: pre, post, ⟨by rw [e1.1]; rfl, e1.2⟩, ?_⟩
      intro pre1 x y post1 hx
      cases pre1 with
      | nil =>
        obtain ⟨g1, gx, gy⟩ := hx
        have := matchPutAt_isSome x y post1 ⟨gx.1, gx.2.1, dot_of_no_newline x gx.2.2⟩
          ⟨gy.1, gy.2.1, dot_of_no_newline y gy.2.2⟩
        rw [List.nil_append] at g1
        rw [← g1, hm] at this
        exact absurd this (by simp)
      | cons c1 pre1 =>
        obtain ⟨g1, g2⟩ := hx
        have g5 : s = pre1 ++ '<' :: x ++ '>' :: ' ' :: '<' :: y ++ '>' :: post1 := by
          have e : c1 :: pre1 ++ '<' :: x ++ '>' :: ' ' :: '<' :: y ++ '>' :: post1
              = c1 :: (pre1 ++ '<' :: x ++ '>' :: ' ' :: '<' :: y ++ '>' :: post1) := by simp
          rw [e] at g1
          exact (List.cons.inj g1).2
        rcases e2 pre1 x y post1 ⟨g5, g2⟩ with h1 | h1
        · exact Or.inl (by simp only [List.length_cons]; omega)
        · exact Or.inr ⟨by simp only [List.length_cons]; omega, h1.2⟩

/-! ## The claims on the parser -/

/-- C11. For tokens `k` and `v` (1 to 255 characters, no `<`, no `>`, no line
terminator) the line `GET <k>` makes `handleRequest` extract the key `k`, and the
lines `PUT <k> <v>` and `DELETE <k> <v>` the key `k` and the value `v`, without
the brackets; the handler then runs the case of the keyword on them. -/
theorem parseRequest_wellformed (k v : Str) (hk : Token k) (hv : Token v) :
    parseRequest (lineGET k) = some ("GET".toList, k, [])
    ∧ parseRequest (linePUT k v) = some ("PUT".toList, k, v)
    ∧ parseRequest (lineDELETE k v) = some ("DELETE".toList, k, v)
    ∧ ∀ d : Dict,
        handleRequest d (lineGET k) = some ((caseGET d k).1, respond (caseGET d k).2)
        ∧ handleRequest d (linePUT k v)
            = some ((casePUT d k v).1, respond (casePUT d k v).2)
        ∧ handleRequest d (lineDELETE k v)
            = (caseDELETE d k v).map (fun r => (r.1, respond r.2)) :=
  ⟨parseRequest_lineGET k hk.1 hk.2.1 hk.2.2.2.2.1,
   parseRequest_linePUT k v ⟨hk.1, hk.2.1, hk.2.2.2.2.1⟩ ⟨hv.1, hv.2.1, hv.2.2.2.2.1⟩
     hv.2.2.2.1,
   parseRequest_lineDELETE k v ⟨hk.1, hk.2.1, hk.2.2.2.2.1⟩ ⟨hv.1, hv.2.1, hv.2.2.2.2.1⟩
     hv.2.2.2.1,
   fun d => ⟨handleRequest_lineGET d k hk, handleRequest_linePUT d k v hk hv,
     handleRequest_lineDELETE d k v hk hv⟩⟩

/-- C11, on the tokens `fruit` and `apple`. -/
theorem parseRequest_wellformed_witness :
    Token "fruit".toList ∧ Token "apple".toList
    ∧ parseRequest "PUT <fruit> <apple>\n".toList
        = some ("PUT".toList, "fruit".toList, "apple".toList) :=
  ⟨by decide, by decide,
   (parseRequest_wellformed "fruit".toList "apple".toList (by decide) (by decide)).2.1⟩

/-- C12 as stated fails: the argument strings `x<k>y` and `<a<b>` are not one
bracketed token, and `x<a> <b>y` is not two bracketed tokens, yet the handler
extracts the key `k`, the key `a<b`, and the key `a` with the value `b`. -/
theorem parseRequest_extracts_inside_other_text :
    (¬ ShapeGET "x<k>y".toList
      ∧ parseRequest "GET x<k>y\n".toList = some ("GET".toList, "k".toList, []))
    ∧ (¬ ShapeGET "<a<b>".toList
      ∧ parseRequest "GET <a<b>\n".toList = some ("GET".toList, "a<b".toList, []))
    ∧ (¬ ShapePUT "x<a> <b>y".toList
      ∧ parseRequest "PUT x<a> <b>y\n".toList
          = some ("PUT".toList, "a".toList, "b".toList)) := by
  refine ⟨⟨?_, by decide⟩, ⟨?_, by decide⟩, ⟨?_, by decide⟩⟩
  · intro ⟨k, _, h⟩
    have h0 := (List.cons.inj h).1
    exact absurd h0 (by decide)
  · intro ⟨k, hk, h⟩
    have h1 : k ++ ['>'] = "a<b".toList ++ ['>'] := (List.cons.inj h).2.symm
    have h2 : k = "a<b".toList := List.append_cancel_right h1
    rw [h2] at hk
    exact absurd hk (by decide)
  · intro ⟨k, v, _, _, h⟩
    have h0 := (List.cons.inj h).1
    exact absurd h0 (by decide)

/-- C12, amended. The key and the value that the first switch extracts both stay
empty exactly when the argument string holds no match of the pattern anywhere:
for `GET` no `<`, 1 to 255 characters other than the newline, `>`; for `PUT` and
`DELETE` no two such bracketed texts with one space between them. When it holds
a match, the key (and for `PUT` and `DELETE` the value, which stays empty for
`GET`) is the bracketed text of the match that starts leftmost, the key as long
as a match at that place allows and then the value as long as possible;
`DELETE` extracts what `PUT` extracts. -/
theorem parseArgs_match (args : Str) :
    (parseArgs "GET".toList args = ([], []) ↔ ¬ HasGetMatch args)
    ∧ (parseArgs "PUT".toList args = ([], []) ↔ ¬ HasPutMatch args)
    ∧ (parseArgs "DELETE".toList args = ([], []) ↔ ¬ HasPutMatch args)
    ∧ (HasGetMatch args →
        (parseArgs "GET".toList args).2 = []
        ∧ ∃ pre post, IsGetMatch args pre (parseArgs "GET".toList args).1 post
          ∧ ∀ pre1 x post1 : Str, IsGetMatch args pre1 x post1 →
              pre.length < pre1.length
              ∨ (pre.length = pre1.length
                ∧ x.length ≤ (parseArgs "GET".toList args).1.length))
    ∧ (HasPutMatch args →
        ∃ pre post, IsPutMatch args pre (parseArgs "PUT".toList args).1
            (parseArgs "PUT".toList args).2 post
          ∧ ∀ pre1 x y post1 : Str, IsPutMatch args pre1 x y post1 →
              pre.length < pre1.length
              ∨ (pre.length = pre1.length
                ∧ (x.length < (parseArgs "PUT".toList args).1.length
                  ∨ (x.length = (parseArgs "PUT".toList args).1.length
                    ∧ y.length ≤ (parseArgs "PUT".toList args).2.length))))
    ∧ parseArgs "DELETE".toList args = parseArgs "PUT".toList args := by
  refine ⟨?_, ?_, ?_, ?_, ?_, ?_⟩
  · rw [parseArgs_GET, matchGet_pair_eq_nil_iff, findGet_eq_none_iff]
  · rw [parseArgs_PUT, matchPut_pair_eq_nil_iff, findPut_eq_none_iff]
  · rw [parseArgs_DELETE, matchPut_pair_eq_nil_iff, findPut_eq_none_iff]
  · intro hm
    cases hf : findGet args with
    | none => exact absurd hm ((findGet_eq_none_iff args).mp hf)
    | some q =>
      have hp : parseArgs "GET".toList args = (q, []) := by rw [parseArgs_GET, hf]
      rw [hp]
      exact ⟨rfl, findGet_leftmost args q hf⟩
  · intro hm
    cases hf : findPut args with
    | none => exact absurd hm ((findPut_eq_none_iff args).mp hf)
    | some kv =>
      obtain ⟨q, v⟩ := kv
      have hp : parseArgs "PUT".toList args = (q, v) := by rw [parseArgs_PUT, hf]
      rw [hp]
      exact findPut_leftmost args q v hf
  · rw [parseArgs_DELETE, parseArgs_PUT]

/-- C12 amended, on the argument string `x`, which holds no bracketed text, and
on `x<k>y`, which holds the bracketed text `k`. -/
theorem parseArgs_match_witness :
    (¬ HasGetMatch "x".toList ∧ parseArgs "GET".toList "x".toList = ([], []))
    ∧ (HasGetMatch "x<k>y".toList
      ∧ ∃ pre post, IsGetMatch "x<k>y".toList pre "k".toList post) := by
  have hm : HasGetMatch "x<k>y".toList :=
    ⟨"x".toList, "k".toList, "y".toList, by decide, by decide, by decide, by decide⟩
  refine ⟨⟨not_hasGetMatch_short _ (by decide),
    (parseArgs_match "x".toList).1.mpr (not_hasGetMatch_short _ (by decide))⟩, hm, ?_⟩
  obtain ⟨pre, post, h1, _⟩ := ((parseArgs_match "x<k>y".toList).2.2.2.1 hm).2
  have hk : (parseArgs "GET".toList "x<k>y".toList).1 = "k".toList := by decide
  rw [hk] at h1
  exact ⟨pre, post, h1⟩

/-! ## Helper lemmas: requests in a row, and the length bound -/

theorem respond_nil : respond [] = "404\n".toList := rfl

theorem respond_one (a : Str) : respond [a] = "200 <".toList ++ a ++ ">\n".toList := by
  simp [respond]

theorem respond_two (a b : Str) :
    respond [a, b] = "200 <".toList ++ a ++ "> <".toList ++ b ++ ">\n".toList := by
  simp [respond]

theorem parseArgs_length (queryType args : Str) :
    (parseArgs queryType args).1.length ≤ 255 ∧ (parseArgs queryType args).2.length ≤ 255 := by
  unfold parseArgs
  by_cases hG : queryType = "GET".toList
  · rw [if_pos hG]
    cases hf : findGet args with
    | none => simp
    | some q =>
      obtain ⟨_, _, _, _, h2, _⟩ := findGet_some args q hf
      exact ⟨h2, by simp⟩
  · rw [if_neg hG]
    have hput : (match findPut args with
        | some kv => kv
        | none => (([] : Str), ([] : Str))).1.length ≤ 255
        ∧ (match findPut args with
        | some kv => kv
        | none => (([] : Str), ([] : Str))).2.length ≤ 255 := by
      cases hf : findPut args with
      | none => simp
      | some kv =>
        obtain ⟨q, v⟩ := kv
        obtain ⟨_, _, _, hq, hv⟩ := findPut_some args q v hf
        exact ⟨hq.2.1, hv.2.1⟩
    by_cases hP : queryType = "PUT".toList
    · rw [if_pos hP]; exact hput
    · rw [if_neg hP]
      by_cases hD : queryType = "DELETE".toList
      · rw [if_pos hD]; exact hput
      · rw [if_neg hD]; simp

theorem parseRequest_length (data queryType key value : Str)
    (h : parseRequest data = some (queryType, key, value)) :
    key.length ≤ 255 ∧ value.length ≤ 255 := by
  unfold parseRequest at h
  split at h
  · rename_i t0 t1 _
    simp only [Option.some.injEq, Prod.mk.injEq] at h
    obtain ⟨_, h2, h3⟩ := h
    rw [← h2, ← h3]
    exact parseArgs_length _ _
  · exact absurd h (by simp)

theorem handleRequest_some_parse (d d1 : Dict) (data resp : Str)
    (h : handleRequest d data = some (d1, resp)) :
    ∃ queryType key value found, parseRequest data = some (queryType, key, value)
      ∧ dispatch d queryType key value = some (d1, found) ∧ resp = respond found := by
  cases hp : parseRequest data with
  | none => rw [parseRequest_none d data hp] at h; exact absurd h (by simp)
  | some r =>
    obtain ⟨queryType, key, value⟩ := r
    rw [handleRequest_of_parseRequest d data queryType key value hp] at h
    cases hdis : dispatch d queryType key value with
    | none => rw [hdis] at h; exact absurd h (by simp)
    | some r2 =>
      obtain ⟨d2, found⟩ := r2
      rw [hdis] at h
      simp only [Option.map_some', Option.some.injEq, Prod.mk.injEq] at h
      exact ⟨queryType, key, value, found, rfl, by rw [hdis, h.1], h.2.symm⟩

theorem bounded_index (d : Dict) (k : Str) (hb : Bounded d) :
    ∀ v ∈ dictIndex d k, v.length ≤ 255 := by
  intro v hv
  unfold dictIndex at hv
  cases hk : d k with
  | none => rw [hk] at hv; simp at hv
  | some vs => rw [hk] at hv; exact (hb k vs hk).2 v hv

theorem bounded_assign (d : Dict) (key : Str) (vs : List Str) (hb : Bounded d)
    (hk : key.length ≤ 255) (hvs : ∀ v ∈ vs, v.length ≤ 255) :
    Bounded (dictAssign d key vs) := by
  intro k ws hkw
  by_cases h : k = key
  · simp [dictAssign, h] at hkw
    rw [← hkw, h]; exact ⟨hk, hvs⟩
  · simp [dictAssign, h] at hkw; exact hb k ws hkw

theorem bounded_delete (d : Dict) (key : Str) (hb : Bounded d) :
    Bounded (dictDelete d key) := by
  intro k ws hkw
  by_cases h : k = key
  · simp [dictDelete, h] at hkw
  · simp [dictDelete, h] at hkw; exact hb k ws hkw

theorem dispatch_bounded (d d1 : Dict) (queryType key value : Str) (found : List Str)
    (hb : Bounded d) (hd : DupFree d) (hk : key.length ≤ 255) (hv : value.length ≤ 255)
    (h : dispatch d queryType key value = some (d1, found)) : Bounded d1 := by
  unfold dispatch at h
  by_cases hG : queryType = "GET".toList
  · rw [if_pos hG] at h
    simp only [caseGET, Option.some.injEq, Prod.mk.injEq] at h
    rw [← h.1]; exact hb
  · rw [if_neg hG] at h
    by_cases hP : queryType = "PUT".toList
    · rw [if_pos hP] at h
      simp only [Option.some.injEq] at h
      have e : d1 = (casePUT d key value).1 := by rw [h]
      rw [e, casePUT_fst]
      by_cases hm : value ∈ dictIndex d key
      · rw [if_pos hm]; exact hb
      · rw [if_neg hm]
        apply bounded_assign d key _ hb hk
        intro x hx
        rcases List.mem_append.mp hx with h1 | h1
        · exact bounded_index d key hb x h1
        · rw [List.mem_singleton] at h1; rw [h1]; exact hv
    · rw [if_neg hP] at h
      by_cases hD : queryType = "DELETE".toList
      · rw [if_pos hD, caseDELETE_of_nodup d key value (hd key)] at h
        by_cases h1 : (dictIndex d key).length = 1
        · rw [if_pos h1] at h
          simp only [Option.some.injEq, Prod.mk.injEq] at h
          rw [← h.1]; exact bounded_delete d key hb
        · rw [if_neg h1] at h
          by_cases h2 : (dictIndex d key).length > 1
          · rw [if_pos h2] at h
            simp only [Option.some.injEq, Prod.mk.injEq] at h
            rw [← h.1]
            apply bounded_assign d key _ hb hk
            intro x hx
            exact bounded_index d key hb x (List.mem_of_mem_erase hx)
          · rw [if_neg h2] at h
            simp only [Option.some.injEq, Prod.mk.injEq] at h
            rw [← h.1]; exact hb
      · rw [if_neg hD] at h
        simp only [Option.some.injEq, Prod.mk.injEq] at h
        rw [← h.1]; exact hb

theorem reachable_bounded (d : Dict) (h : Reachable d) : Bounded d := by
  induction h with
  | init => intro k vs hk; simp [emptyDict] at hk
  | step hreach hstep ih =>
    obtain ⟨queryType, key, value, found, hp, hdis, _⟩ := handleRequest_some_parse _ _ _ _ hstep
    have hlen := parseRequest_length _ _ _ _ hp
    exact dispatch_bounded _ _ queryType key value found ih (reachable_invariant _ hreach).1
      hlen.1 hlen.2 hdis

/-! ## The claims on the protocol -/

/-- C13. From the empty dictionary, for a key `k` and two distinct values `a` and
`b` (tokens of the wire format), the request lines `GET <k>`, `PUT <k> <a>`,
`PUT <k> <b>`, `GET <k>`, `DELETE <k> <a>`, `GET <k>`, `DELETE <k> <b>`, `GET <k>`,
handled in this order, are answered by `404`, `200 <a>`, `200 <a> <b>`,
`200 <a> <b>`, `200 <b>`, `200 <b>`, `404`, `404`, each with a newline. -/
theorem protocol_scenario (k a b : Str) (hk : Token k) (ha : Token a) (hb : Token b)
    (hab : a ≠ b) :
    (serve emptyDict [lineGET k, linePUT k a, linePUT k b, lineGET k, lineDELETE k a,
        lineGET k, lineDELETE k b, lineGET k]).map Prod.snd
      = some ["404\n".toList,
          "200 <".toList ++ a ++ ">\n".toList,
          "200 <".toList ++ a ++ "> <".toList ++ b ++ ">\n".toList,
          "200 <".toList ++ a ++ "> <".toList ++ b ++ ">\n".toList,
          "200 <".toList ++ b ++ ">\n".toList,
          "200 <".toList ++ b ++ ">\n".toList,
          "404\n".toList,
          "404\n".toList] := by
  have idx0 : dictIndex emptyDict k = [] := rfl
  have idx1 : dictIndex (casePUT emptyDict k a).1 k = [a] := by
    rw [casePUT_index_same, idx0]; simp
  have idx2 : dictIndex (casePUT (casePUT emptyDict k a).1 k b).1 k = [a, b] := by
    rw [casePUT_index_same, idx1]
    have hba : ¬ b = a := fun h => hab h.symm
    simp [hba]
  have del1 : caseDELETE (casePUT (casePUT emptyDict k a).1 k b).1 k a
      = some (dictAssign (casePUT (casePUT emptyDict k a).1 k b).1 k [b], [b]) := by
    rw [caseDELETE_of_nodup _ k a (by rw [idx2]; simpa using hab), idx2]
    simp
  have idx3 : dictIndex (dictAssign (casePUT (casePUT emptyDict k a).1 k b).1 k [b]) k
      = [b] := dictIndex_assign_same _ _ _
  have del2 : caseDELETE (dictAssign (casePUT (casePUT emptyDict k a).1 k b).1 k [b]) k b
      = some (dictDelete (dictAssign (casePUT (casePUT emptyDict k a).1 k b).1 k [b]) k,
          []) := by
    rw [caseDELETE_of_nodup _ k b (by rw [idx3]; simp), idx3]
    simp
  have idx4 : dictIndex
      (dictDelete (dictAssign (casePUT (casePUT emptyDict k a).1 k b).1 k [b]) k) k = [] :=
    dictIndex_delete_same _ _
  simp only [serve, handleRequest_lineGET _ k hk, handleRequest_linePUT _ k _ hk ha,
    handleRequest_linePUT _ k _ hk hb, handleRequest_lineDELETE _ k _ hk ha,
    handleRequest_lineDELETE _ k _ hk hb, casePUT_snd, idx0, idx1, idx2, idx3, idx4, del1,
    del2, Option.map_some', respond_nil, respond_one, respond_two]

/-- C13, on the key `fruit` and the values `apple` and `banana`. -/
theorem protocol_scenario_witness :
    (serve emptyDict ["GET <fruit>\n".toList, "PUT <fruit> <apple>\n".toList,
        "PUT <fruit> <banana>\n".toList, "GET <fruit>\n".toList,
        "DELETE <fruit> <apple>\n".toList, "GET <fruit>\n".toList,
        "DELETE <fruit> <banana>\n".toList, "GET <fruit>\n".toList]).map Prod.snd
      = some ["404\n".toList, "200 <apple>\n".toList, "200 <apple> <banana>\n".toList,
          "200 <apple> <banana>\n".toList, "200 <banana>\n".toList,
          "200 <banana>\n".toList, "404\n".toList, "404\n".toList] :=
  protocol_scenario "fruit".toList "apple".toList "banana".toList (by decide) (by decide)
    (by decide) (by decide)

/-- C14 as stated fails. The line `GET`, tab, space, `<fruit>` has the text `GET`
with a tab before its first space, which is none of `GET`, `PUT`, `DELETE`; the
handler trims it to `GET`, extracts the key `fruit` and answers `200 <apple>` on
the dictionary `fruit -> [apple]`. And the line `FOO` with a space and an empty
argument string has no space once trimmed: the handler panics. -/
theorem handleRequest_padded_keyword_is_handled :
    (cutAtSpace "GET\t <fruit>\n".toList = some ("GET\t".toList, "<fruit>\n".toList)
      ∧ "GET\t".toList ≠ "GET".toList ∧ "GET\t".toList ≠ "PUT".toList
      ∧ "GET\t".toList ≠ "DELETE".toList
      ∧ parseRequest "GET\t <fruit>\n".toList = some ("GET".toList, "fruit".toList, [])
      ∧ (handleRequest (dictAssign emptyDict "fruit".toList ["apple".toList])
          "GET\t <fruit>\n".toList).map Prod.snd = some "200 <apple>\n".toList)
    ∧ (cutAtSpace "FOO \n".toList = some ("FOO".toList, "\n".toList)
      ∧ handleRequest emptyDict "FOO \n".toList = none) :=
  ⟨⟨by decide, by decide, by decide, by decide, by decide, by decide⟩, by decide, rfl⟩

/-- C14, amended. For a request line whose trimmed text has a space and whose
keyword, the text before that space trimmed of white space, is none of `GET`,
`PUT` and `DELETE`, the handler extracts no key and no value, leaves the
dictionary as it is and responds `404` and a newline. -/
theorem handleRequest_other_keyword (d : Dict) (data queryType key value : Str)
    (hp : parseRequest data = some (queryType, key, value))
    (hG : queryType ≠ "GET".toList) (hP : queryType ≠ "PUT".toList)
    (hD : queryType ≠ "DELETE".toList) :
    key = [] ∧ value = [] ∧ handleRequest d data = some (d, "404\n".toList) := by
  have hh := handleRequest_of_parseRequest d data queryType key value hp
  unfold dispatch at hh
  rw [if_neg hG, if_neg hP, if_neg hD] at hh
  unfold parseRequest at hp
  split at hp
  · rename_i t0 t1 _
    simp only [Option.some.injEq, Prod.mk.injEq] at hp
    obtain ⟨h1, h2, h3⟩ := hp
    rw [h1] at h2 h3
    unfold parseArgs at h2 h3
    rw [if_neg hG, if_neg hP, if_neg hD] at h2 h3
    exact ⟨h2.symm, h3.symm, hh⟩
  · exact absurd hp (by simp)

/-- C14 amended, on the line `FOO bar`. -/
theorem handleRequest_other_keyword_witness :
    parseRequest "FOO bar\n".toList = some ("FOO".toList, [], [])
    ∧ handleRequest emptyDict "FOO bar\n".toList = some (emptyDict, "404\n".toList) :=
  ⟨by decide,
   (handleRequest_other_keyword emptyDict "FOO bar\n".toList "FOO".toList [] []
      (by decide) (by decide) (by decide) (by decide)).2.2⟩

/-- C15. `case "GET"` leaves the dictionary as it is and finds the sequence of the
key, the empty sequence for an absent key, which stays absent; on the empty
dictionary `GET <fruit>` is answered by `404` and a newline. -/
theorem caseGET_spec (d : Dict) (k : Str) :
    (caseGET d k).1 = d
    ∧ (∀ vs : List Str, d k = some vs → (caseGET d k).2 = vs)
    ∧ (d k = none → (caseGET d k).2 = [] ∧ (caseGET d k).1 k = none)
    ∧ handleRequest emptyDict "GET <fruit>\n".toList = some (emptyDict, "404\n".toList) :=
  ⟨rfl, fun vs h => dictIndex_of_some d k vs h,
   fun h => ⟨dictIndex_of_none d k h, h⟩, rfl⟩

/-- C15, on the dictionary `fruit -> [apple]`: `GET fruit` finds `[apple]`, and
`GET pear` finds nothing and leaves `pear` absent. -/
theorem caseGET_spec_witness :
    (caseGET (dictAssign emptyDict "fruit".toList ["apple".toList]) "fruit".toList).2
      = ["apple".toList]
    ∧ (caseGET (dictAssign emptyDict "fruit".toList ["apple".toList]) "pear".toList).2 = []
    ∧ (caseGET (dictAssign emptyDict "fruit".toList ["apple".toList]) "pear".toList).1
        "pear".toList = none :=
  ⟨(caseGET_spec (dictAssign emptyDict "fruit".toList ["apple".toList])
      "fruit".toList).2.1 ["apple".toList] rfl,
   ((caseGET_spec (dictAssign emptyDict "fruit".toList ["apple".toList])
      "pear".toList).2.2.1 rfl).1,
   ((caseGET_spec (dictAssign emptyDict "fruit".toList ["apple".toList])
      "pear".toList).2.2.1 rfl).2⟩

/-- C16. The key and the value that `handleRequest` extracts from a request line
have at most 255 characters each, so a text of more than 255 characters is never
the key or the value; and every key and value of a dictionary reachable from the
empty one has at most 255 characters. -/
theorem extracted_length_le_255 :
    (∀ data queryType key value : Str,
      parseRequest data = some (queryType, key, value) →
        key.length ≤ 255 ∧ value.length ≤ 255
        ∧ ∀ x : Str, 255 < x.length → key ≠ x ∧ value ≠ x)
    ∧ (∀ d : Dict, Reachable d →
        ∀ (k : Str) (vs : List Str), d k = some vs →
          k.length ≤ 255 ∧ ∀ v ∈ vs, v.length ≤ 255) := by
  refine ⟨?_, fun d h => reachable_bounded d h⟩
  intro data queryType key value hp
  have hlen := parseRequest_length data queryType key value hp
  refine ⟨hlen.1, hlen.2, ?_⟩
  intro x hx
  constructor
  · intro e; rw [e] at hlen; omega
  · intro e; rw [e] at hlen; omega

/-- C16, on the dictionary reached by `PUT <fruit> <apple>`. -/
theorem extracted_length_le_255_witness :
    "fruit".toList.length ≤ 255 ∧ "apple".toList.length ≤ 255
    ∧ ("fruit".toList.length ≤ 255 ∧ ∀ v ∈ ["apple".toList], v.length ≤ 255) :=
  ⟨(extracted_length_le_255.1 "PUT <fruit> <apple>\n".toList "PUT".toList "fruit".toList
      "apple".toList (by decide)).1,
   (extracted_length_le_255.1 "PUT <fruit> <apple>\n".toList "PUT".toList "fruit".toList
      "apple".toList (by decide)).2.1,
   extracted_length_le_255.2 _ reachable_fruit_apple "fruit".toList ["apple".toList] rfl⟩

/-- C18, on the code: every access of `handleRequest` to `dictData` happens with
`dictMutex` held, and the access of `saveDataToFile` to `dictData` happens with
the mutex not held. -/
theorem saveDataToFile_reads_without_lock :
    accessesGuarded false handleRequestOps = true
    ∧ accessesGuarded false saveDataToFileOps = false := by
  decide

/-- The empty-key fallback of `GET` on a request line whose trimmed text has a
space: when the keyword is `GET` and the argument does not match the pattern,
the key stays empty, the dictionary is unchanged and the response is the one of
a lookup of the empty key: the sequence stored under it, formatted, and `404`
with a newline when the empty key is absent. -/
theorem handleRequest_get_fallback (d : Dict) (data t0 t1 : Str)
    (hsplit : SplitN (TrimSpace data) = [t0, t1])
    (hkw : TrimSpace t0 = "GET".toList) (hmis : findGet (TrimSpace t1) = none) :
    parseRequest data = some ("GET".toList, [], [])
    ∧ handleRequest d data = some ((caseGET d []).1, respond (caseGET d []).2)
    ∧ (∀ vs : List Str, d [] = some vs → handleRequest d data = some (d, respond vs))
    ∧ (d [] = none → handleRequest d data = some (d, "404\n".toList)) := by
  have hparse : parseArgs (TrimSpace t0) (TrimSpace t1) = ([], []) := by
    rw [hkw, parseArgs_GET, hmis]
  have hp : parseRequest data = some ("GET".toList, [], []) := by
    unfold parseRequest
    rw [hsplit]
    simp only [hparse]
    rw [hkw]
  have hh : handleRequest d data = some (d, respond (dictIndex d [])) := by
    rw [handleRequest_of_parseRequest d data _ _ _ hp]
    rfl
  refine ⟨hp, hh, ?_, ?_⟩
  · intro vs hvs
    rw [hh, dictIndex_of_some d [] vs hvs]
  · intro hnone
    rw [hh, dictIndex_of_none d [] hnone]
    rfl

/-- The empty-key fallback on the line `GET x`: with the empty value stored under
the empty key (as `PUT x` leaves it) the response is `200 <>`. -/
theorem handleRequest_get_fallback_witness :
    SplitN (TrimSpace "GET x\n".toList) = ["GET".toList, "x".toList]
    ∧ findGet (TrimSpace "x".toList) = none
    ∧ handleRequest (dictAssign emptyDict [] [[]]) "GET x\n".toList
        = some (dictAssign emptyDict [] [[]], "200 <>\n".toList) :=
  ⟨by decide, by decide,
   (handleRequest_get_fallback (dictAssign emptyDict [] [[]]) "GET x\n".toList "GET".toList
      "x".toList (by decide) (by decide) (by decide)).2.2.1 [[]] rfl⟩

/-- C19, at the failing input: the line `GET`, a space and an empty argument
string has the keyword `GET` and an argument that does not match the pattern.
Once trimmed it has no space, so the index `tmpN[1]` panics and nothing is
answered, where a lookup of the empty key answers `404` on the empty dictionary
and `200 <>` on the dictionary with the empty value under the empty key. -/
theorem handleRequest_get_empty_argument_panics :
    cutAtSpace "GET \n".toList = some ("GET".toList, "\n".toList)
    ∧ findGet (TrimSpace "\n".toList) = none
    ∧ SplitN (TrimSpace "GET \n".toList) = ["GET".toList]
    ∧ handleRequest emptyDict "GET \n".toList = none
    ∧ handleRequest (dictAssign emptyDict [] [[]]) "GET \n".toList = none
    ∧ respond (caseGET emptyDict []).2 = "404\n".toList
    ∧ respond (caseGET (dictAssign emptyDict [] [[]]) []).2 = "200 <>\n".toList :=
  ⟨by decide, by decide, by decide, rfl, rfl, by decide, by decide⟩

/-- C20. On a duplicate-free dictionary without empty entries, for a value `v`
that is not in the sequence of `k`, `PUT k v` and then `DELETE k v` end in the
dictionary they started from, and `DELETE` finds the old sequence of `k`. -/
theorem put_delete_identity (d : Dict) (k v : Str) (hd : DupFree d) (hn : NoEmptyEntry d)
    (hv : v ∉ dictIndex d k) :
    caseDELETE (casePUT d k v).1 k v = some (d, dictIndex d k) := by
  have hidx : dictIndex (casePUT d k v).1 k = dictIndex d k ++ [v] := by
    rw [casePUT_index_same, if_neg hv]
  have hfst : (casePUT d k v).1 = dictAssign d k (dictIndex d k ++ [v]) := by
    rw [casePUT_fst, if_neg hv]
  have hnd : (dictIndex d k ++ [v]).Nodup := by
    have := casePUT_dupFree d k v hd k
    rw [hidx] at this
    exact this
  rw [caseDELETE_of_nodup _ k v (by rw [hidx]; exact hnd), hidx]
  by_cases hnil : dictIndex d k = []
  · have hnone : d k = none := by
      cases hk : d k with
      | none => rfl
      | some vs =>
        have := dictIndex_of_some d k vs hk
        rw [hnil] at this
        exact absurd this.symm (hn k vs hk)
    have hdel : dictDelete (casePUT d k v).1 k = d := by
      funext k2
      by_cases h2 : k2 = k
      · rw [h2]; simp [dictDelete, hnone]
      · simp [dictDelete, hfst, dictAssign, h2]
    rw [hnil, hdel]
    simp
  · have hlen : 0 < (dictIndex d k).length := List.length_pos.mpr hnil
    have hl : (dictIndex d k ++ [v]).length = (dictIndex d k).length + 1 := by simp
    have h1 : ¬ (dictIndex d k ++ [v]).length = 1 := by omega
    have h2 : (dictIndex d k ++ [v]).length > 1 := by omega
    have herase : (dictIndex d k ++ [v]).erase v = dictIndex d k := by
      rw [List.erase_append_right _ hv]; simp
    have hsome : d k = some (dictIndex d k) := dict_some_of_index_ne_nil d k hnil
    have hassign : dictAssign (casePUT d k v).1 k (dictIndex d k) = d := by
      funext k2
      by_cases h3 : k2 = k
      · rw [h3]; simp [dictAssign, hsome.symm]
      · simp [dictAssign, hfst, h3]
    rw [if_neg h1, if_pos h2, herase, hassign]

/-- C20, on the empty dictionary: `PUT fruit apple` and then `DELETE fruit apple`
end in the empty dictionary. -/
theorem put_delete_identity_witness :
    caseDELETE (casePUT emptyDict "fruit".toList "apple".toList).1 "fruit".toList
        "apple".toList = some (emptyDict, []) :=
  put_delete_identity emptyDict "fruit".toList "apple".toList
    (fun k => by simp [dictIndex, emptyDict])
    (fun k vs hk => by simp [emptyDict] at hk)
    (by simp [dictIndex, emptyDict])

end UltravimDict
